import Mathlib

set_option maxHeartbeats 1000000
set_option maxRecDepth 10000

/-! Shallow embedding of the message-clustering core of
`script-relatorio-data.py`: body normalization, `difflib.SequenceMatcher`
similarity, greedy single-pass clustering, workbook-row loading, and template
synthesis/sanitization, together with proofs about the specification's claims.

Python strings are modelled as `List Char`.  Python floats are modelled by
exact rationals (`ℚ`); every ratio the code builds (`2*M/T`) is constructed
with `mkRat`, which is exact rational division, and bridge lemmas restate the
definitions in `/` form.  Unicode-dependent primitives (`str.lower`, the `re`
classes `\w` and `\s`) are modelled faithfully on the ASCII range plus the
specific non-ASCII codepoints the theorems mention (U+0130 and U+0307);
other codepoints are outside the model. -/

/-- Python regex `\s` / `str.isspace` on the modelled characters: ASCII
whitespace (including the separator control characters `\x1c`-`\x1f`, which
Python treats as whitespace) plus the common Unicode space codepoints. -/
def pyIsSpace (c : Char) : Bool :=
  let n := c.toNat
  n == 32 || n == 9 || n == 10 || n == 13 || n == 11 || n == 12 ||
  decide (28 ≤ n ∧ n ≤ 31) || n == 0x85 || n == 0xa0 || n == 0x1680 ||
  decide (0x2000 ≤ n ∧ n ≤ 0x200a) || n == 0x2028 || n == 0x2029 ||
  n == 0x202f || n == 0x205f || n == 0x3000

/-- Python regex `\w` (word character) on the modelled characters: ASCII
alphanumerics and underscore, plus U+0130 (`İ`, a letter, hence a word
character in Python).  U+0307 (combining dot above, category Mn) is *not* a
word character for Python's `re`, and neither is any other unmodelled
codepoint here. -/
def pyIsWord (c : Char) : Bool :=
  let n := c.toNat
  decide ((48 ≤ n ∧ n ≤ 57) ∨ (65 ≤ n ∧ n ≤ 90) ∨ (97 ≤ n ∧ n ≤ 122)) ||
  n == 95 || n == 0x130

/-- Python `str.lower` on one character, which may expand: ASCII `A`-`Z` map
to `a`-`z`, and U+0130 (`İ`) lowers to `i` followed by U+0307 (combining dot
above), exactly as in Python.  Other modelled characters are unchanged. -/
def pyLowerChar (c : Char) : List Char :=
  if c.toNat = 0x130 then [Char.ofNat 0x69, Char.ofNat 0x307]
  else if 65 ≤ c.toNat ∧ c.toNat ≤ 90 then [Char.ofNat (c.toNat + 32)]
  else [c]

/-- Python `str.lower` on a string. -/
def pyLower (s : List Char) : List Char := (s.map pyLowerChar).flatten

/-- Python `str.strip()`: drop leading and trailing whitespace. -/
def pyStrip (s : List Char) : List Char :=
  ((s.dropWhile pyIsSpace).reverse.dropWhile pyIsSpace).reverse

/-- ASCII-only lowercasing of one character, used for the case-insensitive
(`re.IGNORECASE`) literal parts of the URL patterns. -/
def asciiLower (c : Char) : Char :=
  if 65 ≤ c.toNat ∧ c.toNat ≤ 90 then Char.ofNat (c.toNat + 32) else c

/-- Match the literal pattern `pat` (given lowercase) case-insensitively at
the head of `s`; on success return the rest of `s`. -/
def stripPrefixCI : List Char → List Char → Option (List Char)
  | [], s => some s
  | _ :: _, [] => none
  | p :: ps, c :: cs => if asciiLower c = p then stripPrefixCI ps cs else none

/-- Greedy `\S+`: requires at least one non-space character and consumes the
whole non-space run; returns the remainder. -/
def takeUrlTail : List Char → Option (List Char)
  | [] => none
  | c :: cs =>
    if pyIsSpace c then none else some ((c :: cs).dropWhile (fun d => !pyIsSpace d))

/-- Try `https?://\S+` (pattern `URL_PATTERN`, `re.IGNORECASE`) at the head of
`s`; on success return the remainder after the match.  The greedy-`s?`
backtracking of the regex engine is realized by trying `s://` first and
falling back to `://`. -/
def matchUrlAt (s : List Char) : Option (List Char) :=
  (stripPrefixCI "http".data s).bind fun rest =>
    match stripPrefixCI "s://".data rest with
    | some r2 => takeUrlTail r2
    | none => (stripPrefixCI "://".data rest).bind takeUrlTail

/-- Try `https?//\S+` (the malformed-URL body of `URL_PATTERN_ALT`) at the
head of `s`.  The leading `\b` of the pattern is checked by the caller. -/
def matchUrlAltAt (s : List Char) : Option (List Char) :=
  (stripPrefixCI "http".data s).bind fun rest =>
    match stripPrefixCI "s//".data rest with
    | some r2 => takeUrlTail r2
    | none => (stripPrefixCI "//".data rest).bind takeUrlTail

/-- `URL_PATTERN.sub(" ", s)`: left-to-right, non-overlapping replacement of
every `https?://\S+` match by one space.  `fuel` bounds the recursion; the
wrapper passes `s.length`, which always suffices because every step consumes
at least one character. -/
def urlSubAux : Nat → List Char → List Char
  | 0, s => s
  | _ + 1, [] => []
  | fuel + 1, c :: rest =>
    match matchUrlAt (c :: rest) with
    | some rem => ' ' :: urlSubAux fuel rem
    | none => c :: urlSubAux fuel rest

/-- `URL_PATTERN.sub(" ", s)`. -/
def urlSub (s : List Char) : List Char := urlSubAux s.length s

/-- `URL_PATTERN_ALT.sub(" ", s)`: like `urlSub` but for `\bhttps?//\S+`.
`prevWord` records whether the previous character of the original string is a
word character, which decides the `\b` boundary (the pattern starts with the
word character `h`).  After a match the run continues at a space or at the end
of the string, where no new match can start, so the flag's value there is
irrelevant; it is reset to `false`. -/
def urlAltSubAux : Nat → Bool → List Char → List Char
  | 0, _, s => s
  | _ + 1, _, [] => []
  | fuel + 1, prevWord, c :: rest =>
    if prevWord then c :: urlAltSubAux fuel (pyIsWord c) rest
    else
      match matchUrlAltAt (c :: rest) with
      | some rem => ' ' :: urlAltSubAux fuel false rem
      | none => c :: urlAltSubAux fuel (pyIsWord c) rest

/-- `URL_PATTERN_ALT.sub(" ", s)`. -/
def urlAltSub (s : List Char) : List Char := urlAltSubAux s.length false s

/-- `NON_WORD_PATTERN.sub(" ", s)`: the class `[^\w\s]` matches one character
at a time, so every character that is neither word nor whitespace becomes a
space. -/
def nonWordSub (s : List Char) : List Char :=
  s.map fun c => if pyIsWord c || pyIsSpace c then c else ' '

/-- `MULTI_WS_PATTERN.sub(" ", s)`: every maximal run of whitespace becomes a
single space. -/
def wsCollapse : List Char → List Char
  | [] => []
  | [c] => if pyIsSpace c then [' '] else [c]
  | c :: d :: rest =>
    if pyIsSpace c && pyIsSpace d then wsCollapse (d :: rest)
    else (if pyIsSpace c then ' ' else c) :: wsCollapse (d :: rest)

/-- `normalize_body` from `script-relatorio-data.py`: strip; if empty return
`""`; otherwise remove well-formed URLs, remove malformed (`http//`) URLs,
blank out non-word characters, collapse whitespace, strip again and
lowercase. -/
def normalize_body (s : List Char) : List Char :=
  let raw := pyStrip s
  if raw = [] then []
  else pyLower (pyStrip (wsCollapse (nonWordSub (urlAltSub (urlSub raw)))))

example : normalize_body "  Oi, TUDO bem?  ".data = "oi tudo bem".data := by decide

example : normalize_body "veja https://x.co/a1 ok".data = "veja ok".data := by decide

example : normalize_body "veja https//x.co/a1 ok".data = "veja ok".data := by decide

/-! ## The `difflib.SequenceMatcher` model

`are_similar` calls `SequenceMatcher(None, a, b, autojunk=False)`, so there is
no junk: `find_longest_match` returns, among all maximal matching blocks, the
one that starts earliest in `a` and, among those, earliest in `b` (the
documented semantics; with an empty junk set the post-scan junk-extension
loops of the CPython implementation are no-ops).  `ratio()` is `2*M/T` where
`M` sums the block sizes of the recursive longest-block decomposition and `T`
is the total length.  `quick_ratio()` counts, over the characters of `a`, how
many can still be matched by an unused occurrence in `b` -- which is the size
of the multiset intersection, i.e. `(a.bagInter b).length` -- and
`real_quick_ratio()` uses `min (length a) (length b)`. -/

/-- Length of the longest common prefix of two strings. -/
def commonPrefixLen : List Char → List Char → Nat
  | a :: as, b :: bs => if a = b then commonPrefixLen as bs + 1 else 0
  | _, _ => 0

/-- Size of the matching run beginning at position `i` of `a` and `j` of `b`,
confined to `a[i:ahi]` and `b[j:bhi]`. -/
def runSize (a b : List Char) (ahi bhi i j : Nat) : Nat :=
  commonPrefixLen ((a.drop i).take (ahi - i)) ((b.drop j).take (bhi - j))

/-- `find_longest_match` on `a[alo:ahi]` / `b[blo:bhi]` with no junk: scan all
start positions in order and keep the first block that strictly enlarges the
best size, yielding the maximal block that starts earliest in `a`, then
earliest in `b`.  Returns `(i, j, size)`; `(alo, blo, 0)` when there is no
match. -/
def findLongestMatch (a b : List Char) (alo ahi blo bhi : Nat) : Nat × Nat × Nat :=
  (List.range' alo (ahi - alo)).foldl
    (fun best i =>
      (List.range' blo (bhi - blo)).foldl
        (fun best j =>
          let k := runSize a b ahi bhi i j
          if best.2.2 < k then (i, j, k) else best)
        best)
    (alo, blo, 0)

/-- Total size `M` of the matching blocks of `get_matching_blocks`: find the
longest block, recurse on the two sides.  `fuel` bounds the recursion depth;
`(ahi - alo) + (bhi - blo)` always suffices because each recursive call
strictly shrinks that measure. -/
def matchTotalAux (a b : List Char) : Nat → Nat → Nat → Nat → Nat → Nat
  | 0, _, _, _, _ => 0
  | fuel + 1, alo, ahi, blo, bhi =>
    let r := findLongestMatch a b alo ahi blo bhi
    if r.2.2 = 0 then 0
    else
      matchTotalAux a b fuel alo r.1 blo r.2.1 + r.2.2 +
        matchTotalAux a b fuel (r.1 + r.2.2) ahi (r.2.1 + r.2.2) bhi

/-- `M`: the total matched size used by `SequenceMatcher.ratio`. -/
def matchTotal (a b : List Char) : Nat :=
  matchTotalAux a b (a.length + b.length) 0 a.length 0 b.length

/-- `difflib._calculate_ratio(matches, length)`: `2.0*matches/length`, and
`1.0` when `length` is zero.  `mkRat` is exact rational division. -/
def calcRatio (m n : Nat) : ℚ :=
  if n = 0 then 1 else mkRat (2 * m) n

/-- `SequenceMatcher.ratio()`. -/
def smRatio (a b : List Char) : ℚ :=
  calcRatio (matchTotal a b) (a.length + b.length)

/-- `SequenceMatcher.quick_ratio()`: its available-occurrence count equals the
size of the multiset intersection of the two character sequences. -/
def smQuickRatio (a b : List Char) : ℚ :=
  calcRatio (a.bagInter b).length (a.length + b.length)

/-- `SequenceMatcher.real_quick_ratio()`. -/
def smRealQuickRatio (a b : List Char) : ℚ :=
  calcRatio (min a.length b.length) (a.length + b.length)

/-- `are_similar` from `script-relatorio-data.py`: empty operands never
match; the two quick upper bounds are tested first; acceptance is
`ratio() >= threshold`. -/
def are_similar (a b : List Char) (threshold : ℚ) : Bool :=
  if a = [] || b = [] then false
  else if smRealQuickRatio a b < threshold then false
  else if smQuickRatio a b < threshold then false
  else threshold ≤ smRatio a b

example : smRatio "ccccdddd".data "cccddduuuuuu".data = mkRat 3 5 := by decide
example : smRatio "ccccddzz".data "ccccdddd".data = mkRat 3 4 := by decide
example : smRatio "wwccdddd".data "ccccddzz".data = mkRat 1 2 := by decide
example : are_similar "ccccddzz".data "ccccdddd".data (mkRat 7 10) = true := by decide
example : are_similar "ccccddzz".data "cccddduuuuuu".data (mkRat 11 20) = false := by decide

/-! ## Data model and clusterer -/

/-- The fields of `Message` that the clustering logic reads.  The remaining
fields of the Python dataclass (`source_file`, `status_raw`, `status_mapped`,
`date`, `metadata`) are carried through unread by `cluster_messages`,
`body_template` and `sanitize_template`, and are omitted from the model. -/
structure Message where
  body : List Char
  body_normalized : List Char
deriving DecidableEq

/-- `MessageCluster` from `script-relatorio-data.py`. -/
structure MessageCluster where
  representative : List Char
  representative_raw : List Char
  messages : List Message
deriving DecidableEq

/-- `MessageCluster.add`. -/
def MessageCluster.add (c : MessageCluster) (m : Message) : MessageCluster :=
  { c with messages := c.messages ++ [m] }

/-- `MessageCluster.total`. -/
def MessageCluster.total (c : MessageCluster) : Nat := c.messages.length

/-- The mutable state of the single pass of `cluster_messages`.  The Python
code holds object references; here clusters are named by their index in
`clusters` (creation order), so `exact_index : normalized ↦ cluster` becomes
`List Char ↦ Nat` and each prefix bucket is a list of indices. -/
structure ClusterState where
  clusters : List MessageCluster
  exactIndex : List (List Char × Nat)
  prefixIndex : List (List Char × List Nat)

def initState : ClusterState := ⟨[], [], []⟩

/-- Dictionary lookup in the exact-match index. -/
def lookupExact (idx : List (List Char × Nat)) (n : List Char) : Option Nat :=
  (idx.find? (fun p => p.1 == n)).map (·.2)

/-- `prefix_index.get(prefix, [])`. -/
def lookupBucket (idx : List (List Char × List Nat)) (p : List Char) : List Nat :=
  ((idx.find? (fun q => q.1 == p)).map (·.2)).getD []

/-- `bucket = prefix_index[prefix]; if assigned_cluster not in bucket:
bucket.append(assigned_cluster)`. -/
def insertBucket : List (List Char × List Nat) → List Char → Nat → List (List Char × List Nat)
  | [], p, k => [(p, [k])]
  | (q, b) :: rest, p, k =>
    if q == p then (q, if k ∈ b then b else b ++ [k]) :: rest
    else (q, b) :: insertBucket rest p k

/-- `if normalized and normalized not in exact_index:
exact_index[normalized] = assigned_cluster`. -/
def updExact (idx : List (List Char × Nat)) (n : List Char) (k : Nat) :
    List (List Char × Nat) :=
  if n = [] then idx
  else if (lookupExact idx n).isSome then idx else (n, k) :: idx

/-- The representative of cluster `k` (out-of-range indices never occur on
reachable states). -/
def repOf (s : ClusterState) (k : Nat) : List Char :=
  (s.clusters[k]?.map (·.representative)).getD []

/-- `assigned_cluster.add(msg)` at index `k`. -/
def updAdd : List MessageCluster → Nat → Message → List MessageCluster
  | [], _, _ => []
  | c :: cs, 0, m => c.add m :: cs
  | c :: cs, k + 1, m => c :: updAdd cs k m

/-- The exact-match fast path: `if normalized and normalized in
exact_index`. -/
def findExact (s : ClusterState) (normalized : List Char) : Option Nat :=
  if normalized = [] then none else lookupExact s.exactIndex normalized

/-- Scan of the prefix-bucket candidates. -/
def findInBucket (t : ℚ) (s : ClusterState) (normalized : List Char)
    (cands : List Nat) : Option Nat :=
  cands.find? fun k => are_similar normalized (repOf s k) t

/-- The length-ratio short-circuit of the fallback scan:
`min(len(rep), len(normalized)) / max(...) < threshold - 0.15` (with both
strings non-empty).  Written divisionlessly:
`min/max < t - 3/20  ↔  (20*min + 3*max)/(20*max) < t`; the bridge lemma
`lengthSkip_eq` below restates it in the source's shape. -/
def lengthSkip (t : ℚ) (normalized rep : List Char) : Bool :=
  !normalized.isEmpty && !rep.isEmpty &&
    decide (mkRat (20 * ↑(min rep.length normalized.length) +
        3 * ↑(max rep.length normalized.length))
      (20 * max rep.length normalized.length) < t)

/-- The fallback scan over all clusters in creation order, skipping the
already-evaluated prefix candidates (`evaluated_ids`) and applying the
length-ratio short-circuit. -/
def findFallback (t : ℚ) (s : ClusterState) (normalized : List Char)
    (cands : List Nat) : Option Nat :=
  (List.range s.clusters.length).find? fun k =>
    if cands.contains k then false
    else if lengthSkip t normalized (repOf s k) then false
    else are_similar normalized (repOf s k) t

/-- The cluster the current message is routed to, if any existing cluster
accepts it: exact match first, then the prefix bucket, then the fallback
scan. -/
def chooseCluster (t : ℚ) (s : ClusterState) (normalized : List Char) : Option Nat :=
  match findExact s normalized with
  | some k => some k
  | none =>
    let cands := lookupBucket s.prefixIndex (normalized.take 40)
    match findInBucket t s normalized cands with
    | some k => some k
    | none => findFallback t s normalized cands

/-- One iteration of the `for msg in messages` loop of `cluster_messages`:
route the message (creating a cluster when nothing accepts it), append it to
the target cluster, then register the normalized body in the exact-match
index and the cluster in the prefix bucket.  Also returns the index of the
cluster the message was assigned to. -/
def stepMsg (t : ℚ) (s : ClusterState) (msg : Message) : ClusterState × Nat :=
  let normalized := msg.body_normalized
  let pfx := normalized.take 40
  match chooseCluster t s normalized with
  | some k =>
    (⟨updAdd s.clusters k msg,
      updExact s.exactIndex normalized k,
      insertBucket s.prefixIndex pfx k⟩, k)
  | none =>
    let k := s.clusters.length
    (⟨updAdd (s.clusters ++ [⟨normalized, msg.body, []⟩]) k msg,
      updExact s.exactIndex normalized k,
      insertBucket s.prefixIndex pfx k⟩, k)

/-- The whole pass, threading the state and recording each message's assigned
cluster index. -/
def runAux (t : ℚ) : ClusterState × List Nat → List Message → ClusterState × List Nat
  | acc, [] => acc
  | (s, tr), m :: ms => runAux t ((stepMsg t s m).1, tr ++ [(stepMsg t s m).2]) ms

def runClusters (msgs : List Message) (t : ℚ) : ClusterState × List Nat :=
  runAux t (initState, []) msgs

/-- The clusters in creation order, before the final sort. -/
def rawClusters (msgs : List Message) (t : ℚ) : List MessageCluster :=
  (runClusters msgs t).1.clusters

/-- The cluster index each input message was assigned to, in input order. -/
def assignments (msgs : List Message) (t : ℚ) : List Nat :=
  (runClusters msgs t).2

/-- Stable insertion into a list sorted by descending `total`: the new
element goes after every strictly larger element and before the first element
whose `total` is `≤` its own, which is exactly the placement of Python's
stable `list.sort(key=total, reverse=True)` for an element that originally
preceded all of them. -/
def insertByTotal (c : MessageCluster) : List MessageCluster → List MessageCluster
  | [] => [c]
  | d :: ds => if d.total ≤ c.total then c :: d :: ds else d :: insertByTotal c ds

/-- `clusters.sort(key=lambda c: c.total, reverse=True)`: stable descending
sort by member count. -/
def sortByTotal : List MessageCluster → List MessageCluster
  | [] => []
  | c :: cs => insertByTotal c (sortByTotal cs)

/-- `cluster_messages` from `script-relatorio-data.py`. -/
def cluster_messages (msgs : List Message) (threshold : ℚ) : List MessageCluster :=
  sortByTotal (rawClusters msgs threshold)

/-! ## Workbook-row loading

`load_messages_from_workbook` zips the normalized header with each raw row
and keeps a row only when some cell is truthy and the `body` (else `texto`)
cell is truthy.  Rows are modelled as the zipped mapping, with cells as
optional strings (`None` or text; non-string cells are outside the model,
and trailing unlabelled cells are not modelled). -/

abbrev Row := List (List Char × Option (List Char))

/-- Python truthiness of a cell: `None` and `""` are falsy. -/
def cellTruthy : Option (List Char) → Bool
  | none => false
  | some s => !s.isEmpty

/-- `row_dict.get(key)`; `dict(zip(...))` keeps the last duplicate of a
key. -/
def rowGet (r : Row) (key : List Char) : Option (List Char) :=
  ((r.reverse.find? (fun p => p.1 == key)).map (·.2)).getD none

/-- Python `a or b`. -/
def pyOr (a b : Option (List Char)) : Option (List Char) :=
  if cellTruthy a then a else b

/-- The per-row body of the loading loop: `None` when the row is skipped
(`if not any(raw_row)` or falsy body), otherwise the constructed `Message`
with stripped body and normalized body. -/
def loadRow (r : Row) : Option Message :=
  if r.any (fun p => cellTruthy p.2) = false then none
  else
    match pyOr (rowGet r "body".data) (rowGet r "texto".data) with
    | none => none
    | some s => if s = [] then none else some ⟨pyStrip s, normalize_body s⟩

def loadRows (rows : List Row) : List Message := rows.filterMap loadRow

/-- Rows skipped by the loading loop. -/
def droppedCount (rows : List Row) : Nat :=
  (rows.filter (fun r => (loadRow r).isNone)).length

example :
    (cluster_messages
      [⟨"cccddduuuuuu".data, "cccddduuuuuu".data⟩,
       ⟨"ccccdddd".data, "ccccdddd".data⟩,
       ⟨"ccccddzz".data, "ccccddzz".data⟩,
       ⟨"wwccdddd".data, "wwccdddd".data⟩] (mkRat 11 20)).length = 3 := by decide

example :
    (cluster_messages
      [⟨"cccddduuuuuu".data, "cccddduuuuuu".data⟩,
       ⟨"ccccdddd".data, "ccccdddd".data⟩,
       ⟨"ccccddzz".data, "ccccddzz".data⟩,
       ⟨"wwccdddd".data, "wwccdddd".data⟩] (mkRat 7 10)).length = 2 := by decide

example :
    (cluster_messages [⟨"!!".data, [] ⟩, ⟨"??".data, []⟩] (mkRat 7 10)).length = 2 := by
  decide

example : loadRow [("body".data, some " ".data)] = some ⟨[], []⟩ := by decide

example : loadRow [("body".data, some "".data)] = none := by decide

/-! ## Template synthesis and sanitization -/

/-- Python `str.split()` with no separator: split on whitespace runs,
producing no empty tokens. -/
def splitWsAux : List Char → List Char → List (List Char)
  | [], cur => if cur = [] then [] else [cur.reverse]
  | c :: rest, cur =>
    if pyIsSpace c then
      if cur = [] then splitWsAux rest [] else cur.reverse :: splitWsAux rest []
    else splitWsAux rest (c :: cur)

def splitWs (s : List Char) : List (List Char) := splitWsAux s []

/-- `" ".join(tokens)`. -/
def joinSpace (ts : List (List Char)) : List Char := List.intercalate " ".data ts

/-- The placeholder token `"\x7bvariavel\x7d"`. -/
def varToken : List Char := "\x7bvariavel\x7d".data

/-- `[msg.body.strip().split() for msg in self.messages if msg.body.strip()]`. -/
def tokensPerMessage (c : MessageCluster) : List (List (List Char)) :=
  c.messages.filterMap fun m =>
    if pyStrip m.body = [] then none else some (splitWs (pyStrip m.body))

/-- `[tokens[idx] if idx < len(tokens) else None for tokens in ...]`. -/
def tokensAt (tpm : List (List (List Char))) (idx : Nat) : List (Option (List Char)) :=
  tpm.map fun toks => toks[idx]?

/-- The position-wise loop of `body_template`, with the early `break` when
every member lacks a token at the position (`rem` counts the remaining
positions up to `max_len`; `acc` keeps the emitted tokens reversed). -/
def templLoop (tpm : List (List (List Char))) : Nat → Nat → List (List Char) → List (List Char)
  | 0, _, acc => acc.reverse
  | rem + 1, idx, acc =>
    let atIdx := tokensAt tpm idx
    let hasMissing := atIdx.any (·.isNone)
    let values := (atIdx.filterMap id).dedup
    if values = [] ∧ hasMissing = true then acc.reverse
    else if values.length = 1 ∧ hasMissing = false then
      templLoop tpm rem (idx + 1) (values.headD [] :: acc)
    else
      templLoop tpm rem (idx + 1)
        (if acc = [] ∨ acc.headD [] ≠ varToken then varToken :: acc else acc)

/-- `MessageCluster.body_template`: position-wise template of the member
bodies, collapsing varying positions to the placeholder.  (`values` is the
set of distinct tokens present at the position, realized by `dedup`.) -/
def MessageCluster.body_template (c : MessageCluster) : List Char :=
  if c.messages = [] then []
  else
    let tpm := tokensPerMessage c
    if tpm = [] then []
    else if tpm.length = 1 then joinSpace (tpm.headD [])
    else joinSpace (templLoop tpm ((tpm.map List.length).foldr max 0) 0 [])

/-- `sanitize_template`: fall back to the representative's raw text when the
synthesized template is empty, all placeholders, or at least 60% placeholders
(`var_tokens / len(tokens) >= 0.6` in exact arithmetic).  It is total: some
string is always returned. -/
def sanitize_template (c : MessageCluster) : List Char :=
  let template := pyStrip c.body_template
  if template = [] then c.representative_raw
  else
    let tokens := splitWs template
    if tokens = [] then c.representative_raw
    else
      let varTokens := (tokens.filter (· == varToken)).length
      if varTokens = tokens.length then c.representative_raw
      else if mkRat 3 5 ≤ mkRat varTokens tokens.length then c.representative_raw
      else template

/-- The degenerate-template condition in the words of the specification: the
synthesized template is empty, or consists 100% of `\x7bvariavel\x7d`
placeholder tokens, or placeholders make up at least 60% of its tokens. -/
def specDegenerate (c : MessageCluster) : Bool :=
  pyStrip c.body_template = [] ||
  (splitWs (pyStrip c.body_template)).all (· == varToken) ||
  decide (mkRat 3 5 ≤
    mkRat ((splitWs (pyStrip c.body_template)).filter (· == varToken)).length
      (splitWs (pyStrip c.body_template)).length)

example :
    sanitize_template ⟨"oi x".data, "Oi! X".data,
      [⟨"Oi amigo a".data, "oi amigo a".data⟩, ⟨"Oi amigo b".data, "oi amigo b".data⟩]⟩ =
      "Oi amigo \x7bvariavel\x7d".data := by decide

example :
    sanitize_template ⟨"a b".data, "A? B!".data,
      [⟨"x y".data, "x y".data⟩, ⟨"p q".data, "p q".data⟩]⟩ = "A? B!".data := by decide


/-! ## Generic helpers -/

theorem foldl_invariant {α β : Type _} (f : β → α → β) (P : β → Prop) :
    ∀ (l : List α) (init : β), P init →
      (∀ acc x, x ∈ l → P acc → P (f acc x)) → P (l.foldl f init) := by
  intro l
  induction l with
  | nil => intro init h _; exact h
  | cons x xs ih =>
    intro init h hstep
    exact ih (f init x) (hstep init x (List.mem_cons_self x xs) h)
      fun acc y hy => hstep acc y (List.mem_cons_of_mem x hy)

theorem length_eq_filterMap_add_dropped {α β : Type _} (f : α → Option β) :
    ∀ l : List α,
      (l.filterMap f).length + (l.filter (fun a => (f a).isNone)).length = l.length := by
  intro l
  induction l with
  | nil => rfl
  | cons a l ih =>
    rw [List.filterMap_cons, List.filter_cons]
    cases hfa : f a with
    | none => simp only [hfa, Option.isNone_none, if_pos]; simp; omega
    | some b => simp only [hfa, Option.isNone_some, Bool.false_eq_true, if_neg]; simp; omega

/-! ## Claim C8 support: the sanitize_template equation -/

theorem filter_length_eq_all {α : Type _} (p : α → Bool) (l : List α) :
    (l.filter p).length = l.length ↔ l.all p = true := by
  constructor
  · intro h
    have := List.filter_eq_self.mp (List.Sublist.eq_of_length (List.filter_sublist l) h)
    rw [List.all_eq_true]; exact this
  · intro h
    rw [List.filter_eq_self.mpr (by simpa [List.all_eq_true] using h)]

/-- C8: `sanitize_template` returns the representative's raw text exactly
under the spec's degenerate-template condition (empty template, 100%
placeholders, or at least 60% placeholders), and the synthesized template in
every other case; in particular it always returns a string -- template
synthesis cannot fail. -/
theorem c8_theorem (c : MessageCluster) :
    sanitize_template c =
      if specDegenerate c then c.representative_raw else pyStrip c.body_template := by
  by_cases h1 : pyStrip c.body_template = []
  · simp [sanitize_template, specDegenerate, h1]
  · by_cases h2 : splitWs (pyStrip c.body_template) = []
    · simp [sanitize_template, specDegenerate, h1, h2]
    · by_cases h3 : ((splitWs (pyStrip c.body_template)).filter (· == varToken)).length =
          (splitWs (pyStrip c.body_template)).length
      · have hall := (filter_length_eq_all (· == varToken) _).mp h3
        simp [sanitize_template, specDegenerate, h1, h2, h3, hall]
      · by_cases h4 : mkRat 3 5 ≤
            mkRat (((splitWs (pyStrip c.body_template)).filter (· == varToken)).length : Int)
              (splitWs (pyStrip c.body_template)).length
        · simp [sanitize_template, specDegenerate, h1, h2, h3, h4]
        · have hall : ¬ (splitWs (pyStrip c.body_template)).all (· == varToken) = true := by
            rw [← filter_length_eq_all]; exact h3
          simp [sanitize_template, specDegenerate, h1, h2, h3, h4, hall]

/-! ## Claim C7 support: the stable descending sort -/

theorem insertByTotal_perm (c : MessageCluster) :
    ∀ l : List MessageCluster, (insertByTotal c l).Perm (c :: l) := by
  intro l
  induction l with
  | nil => exact List.Perm.refl _
  | cons d ds ih =>
    by_cases h : d.total ≤ c.total
    · simp [insertByTotal, h]
    · simp only [insertByTotal, h, if_neg, not_false_iff]
      exact (ih.cons d).trans (List.Perm.swap c d ds)

theorem sortByTotal_perm : ∀ l : List MessageCluster, (sortByTotal l).Perm l := by
  intro l
  induction l with
  | nil => exact List.Perm.refl _
  | cons c cs ih => exact (insertByTotal_perm c (sortByTotal cs)).trans (ih.cons c)

theorem insertByTotal_pairwise (c : MessageCluster) :
    ∀ l : List MessageCluster, l.Pairwise (fun x y => y.total ≤ x.total) →
      (insertByTotal c l).Pairwise (fun x y => y.total ≤ x.total) := by
  intro l
  induction l with
  | nil => intro _; exact List.pairwise_singleton _ _
  | cons d ds ih =>
    intro hl
    rcases List.pairwise_cons.mp hl with ⟨hd, hds⟩
    by_cases h : d.total ≤ c.total
    · simp only [insertByTotal, h, if_pos]
      refine List.pairwise_cons.mpr ⟨?_, hl⟩
      intro e he
      rcases List.mem_cons.mp he with rfl | he'
      · exact h
      · exact le_trans (hd e he') h
    · simp only [insertByTotal, h, if_neg, not_false_iff]
      refine List.pairwise_cons.mpr ⟨?_, ih hds⟩
      intro e he
      rcases List.mem_cons.mp ((insertByTotal_perm c ds).mem_iff.mp he) with rfl | he'
      · exact le_of_not_le h
      · exact hd e he'

theorem sortByTotal_pairwise :
    ∀ l : List MessageCluster, (sortByTotal l).Pairwise (fun x y => y.total ≤ x.total) := by
  intro l
  induction l with
  | nil => exact List.Pairwise.nil
  | cons c cs ih => exact insertByTotal_pairwise c (sortByTotal cs) ih

theorem insertByTotal_filter (c : MessageCluster) (k : Nat) :
    ∀ l : List MessageCluster,
      (insertByTotal c l).filter (fun x => x.total == k) =
        (c :: l).filter (fun x => x.total == k) := by
  intro l
  induction l with
  | nil => rfl
  | cons d ds ih =>
    by_cases h : d.total ≤ c.total
    · simp [insertByTotal, h]
    · simp only [insertByTotal, h, if_neg, not_false_iff]
      by_cases hc : c.total = k
      · have hd : (d.total == k) = false := by
          simp only [beq_eq_false_iff_ne, ne_eq]
          omega
        simp [List.filter_cons, hd, ih]
      · have hc' : (c.total == k) = false := by simp [hc]
        simp [List.filter_cons, hc', ih]

theorem sortByTotal_filter (k : Nat) :
    ∀ l : List MessageCluster,
      (sortByTotal l).filter (fun x => x.total == k) = l.filter (fun x => x.total == k) := by
  intro l
  induction l with
  | nil => rfl
  | cons c cs ih =>
    rw [sortByTotal, insertByTotal_filter c k (sortByTotal cs), List.filter_cons,
      List.filter_cons, ih]

/-- C7: the list returned by `cluster_messages` is sorted by descending
member count, and among clusters of equal member count the output preserves
the order of `rawClusters`, i.e. the order in which the clusters were created
during the single pass (the sort is stable). -/
theorem c7_theorem (msgs : List Message) (t : ℚ) :
    (cluster_messages msgs t).Pairwise (fun x y => y.total ≤ x.total) ∧
      ∀ k : Nat, (cluster_messages msgs t).filter (fun x => x.total == k) =
        (rawClusters msgs t).filter (fun x => x.total == k) := by
  exact ⟨sortByTotal_pairwise _, fun k => sortByTotal_filter k _⟩

/-! ## Claim C4 support: conservation of messages -/

/-- All cluster indices stored in the two indexes are in range. -/
def BoundInv (s : ClusterState) : Prop :=
  (∀ p ∈ s.exactIndex, p.2 < s.clusters.length) ∧
  (∀ q ∈ s.prefixIndex, ∀ k ∈ q.2, k < s.clusters.length)

theorem initState_bound : BoundInv initState := by
  constructor <;> intro p hp <;> simp [initState] at hp

theorem updAdd_length (m : Message) :
    ∀ (cs : List MessageCluster) (k : Nat), (updAdd cs k m).length = cs.length := by
  intro cs
  induction cs with
  | nil => intro k; rfl
  | cons c cs ih =>
    intro k
    cases k with
    | zero => rfl
    | succ k => simpa [updAdd] using ih k

theorem lookupExact_mem {idx : List (List Char × Nat)} {n : List Char} {k : Nat}
    (h : lookupExact idx n = some k) : (n, k) ∈ idx := by
  unfold lookupExact at h
  cases hf : idx.find? (fun p => p.1 == n) with
  | none => rw [hf] at h; exact absurd h (by simp)
  | some p =>
    rw [hf] at h
    have hm := List.mem_of_find?_eq_some hf
    have hp := List.find?_some hf
    have h1 : p.1 = n := by simpa using hp
    have h2 : p.2 = k := by simpa using h
    have : p = (n, k) := Prod.ext h1 h2
    rwa [this] at hm

theorem lookupBucket_mem {idx : List (List Char × List Nat)} {p : List Char} {j : Nat}
    (h : j ∈ lookupBucket idx p) : ∃ q ∈ idx, j ∈ q.2 := by
  unfold lookupBucket at h
  cases hf : idx.find? (fun q => q.1 == p) with
  | none => rw [hf] at h; exact absurd h (by simp)
  | some q =>
    rw [hf] at h
    exact ⟨q, List.mem_of_find?_eq_some hf, by simpa using h⟩

theorem mem_insertBucket {p : List Char} {k j : Nat} :
    ∀ {idx : List (List Char × List Nat)} {q' : List Char × List Nat},
      q' ∈ insertBucket idx p k → j ∈ q'.2 → (∃ q ∈ idx, j ∈ q.2) ∨ j = k := by
  intro idx
  induction idx with
  | nil =>
    intro q' hq hj
    simp only [insertBucket, List.mem_singleton] at hq
    subst hq
    simp only [List.mem_singleton] at hj
    exact Or.inr hj
  | cons r rest ih =>
    intro q' hq hj
    by_cases h : (r.1 == p) = true
    · simp only [insertBucket, h, if_pos] at hq
      rcases List.mem_cons.mp hq with rfl | hq'
      · by_cases hk : k ∈ r.2
        · simp only [hk, if_pos] at hj
          exact Or.inl ⟨r, List.mem_cons_self r rest, hj⟩
        · simp only [hk, if_neg, not_false_iff] at hj
          rcases List.mem_append.mp hj with hj' | hj'
          · exact Or.inl ⟨r, List.mem_cons_self r rest, hj'⟩
          · exact Or.inr (by simpa using hj')
      · exact Or.inl ⟨q', List.mem_cons_of_mem r hq', hj⟩
    · simp only [insertBucket, h, Bool.false_eq_true, if_neg, not_false_iff] at hq
      rcases List.mem_cons.mp hq with rfl | hq'
      · exact Or.inl ⟨r, List.mem_cons_self r rest, hj⟩
      · rcases ih hq' hj with ⟨q, hq'', hj'⟩ | hk
        · exact Or.inl ⟨q, List.mem_cons_of_mem r hq'', hj'⟩
        · exact Or.inr hk

theorem chooseCluster_lt {t : ℚ} {s : ClusterState} {n : List Char} {k : Nat}
    (hb : BoundInv s) (h : chooseCluster t s n = some k) : k < s.clusters.length := by
  unfold chooseCluster at h
  cases he : findExact s n with
  | some k' =>
    rw [he] at h
    have hk : k' = k := by simpa using h
    subst hk
    unfold findExact at he
    by_cases hn : n = []
    · rw [if_pos hn] at he; exact absurd he (by simp)
    · rw [if_neg hn] at he
      exact hb.1 _ (lookupExact_mem he)
  | none =>
    rw [he] at h
    simp only at h
    cases hf : findInBucket t s n (lookupBucket s.prefixIndex (n.take 40)) with
    | some k' =>
      rw [hf] at h
      have hk : k' = k := by simpa using h
      subst hk
      have hm := List.mem_of_find?_eq_some hf
      rcases lookupBucket_mem hm with ⟨q, hq, hj⟩
      exact hb.2 q hq _ hj
    | none =>
      rw [hf] at h
      simp only at h
      have hm := List.mem_of_find?_eq_some h
      simpa using hm

theorem stepMsg_eq_some {t : ℚ} {s : ClusterState} {m : Message} {k : Nat}
    (h : chooseCluster t s m.body_normalized = some k) :
    stepMsg t s m =
      (⟨updAdd s.clusters k m,
        updExact s.exactIndex m.body_normalized k,
        insertBucket s.prefixIndex (m.body_normalized.take 40) k⟩, k) := by
  simp only [stepMsg, h]

theorem stepMsg_eq_none {t : ℚ} {s : ClusterState} {m : Message}
    (h : chooseCluster t s m.body_normalized = none) :
    stepMsg t s m =
      (⟨updAdd (s.clusters ++ [⟨m.body_normalized, m.body, []⟩]) s.clusters.length m,
        updExact s.exactIndex m.body_normalized s.clusters.length,
        insertBucket s.prefixIndex (m.body_normalized.take 40) s.clusters.length⟩,
       s.clusters.length) := by
  simp only [stepMsg, h]

theorem stepMsg_length (t : ℚ) (s : ClusterState) (m : Message) :
    (stepMsg t s m).1.clusters.length = s.clusters.length ∨
      (stepMsg t s m).1.clusters.length = s.clusters.length + 1 := by
  cases h : chooseCluster t s m.body_normalized with
  | some k => left; rw [stepMsg_eq_some h]; simp [updAdd_length]
  | none => right; rw [stepMsg_eq_none h]; simp [updAdd_length]

theorem mem_updExact {idx : List (List Char × Nat)} {n : List Char} {k : Nat}
    {p : List Char × Nat} (hp : p ∈ updExact idx n k) :
    p ∈ idx ∨ (p = (n, k) ∧ n ≠ [] ∧ lookupExact idx n = none) := by
  unfold updExact at hp
  by_cases hn : n = []
  · rw [if_pos hn] at hp; exact Or.inl hp
  · rw [if_neg hn] at hp
    by_cases hl : (lookupExact idx n).isSome
    · rw [if_pos hl] at hp; exact Or.inl hp
    · rw [if_neg hl] at hp
      rcases List.mem_cons.mp hp with rfl | hp'
      · exact Or.inr ⟨rfl, hn, Option.not_isSome_iff_eq_none.mp hl⟩
      · exact Or.inl hp'

theorem boundInv_step {t : ℚ} {s : ClusterState} (m : Message) (hb : BoundInv s) :
    BoundInv (stepMsg t s m).1 := by
  cases hcc : chooseCluster t s m.body_normalized with
  | some k =>
    rw [stepMsg_eq_some hcc]
    have hk := chooseCluster_lt hb hcc
    constructor
    · intro p hp
      rw [updAdd_length]
      rcases mem_updExact hp with hp' | ⟨rfl, -, -⟩
      · exact hb.1 p hp'
      · exact hk
    · intro q hq j hj
      rw [updAdd_length]
      rcases mem_insertBucket hq hj with ⟨q', hq', hj'⟩ | rfl
      · exact hb.2 q' hq' j hj'
      · exact hk
  | none =>
    rw [stepMsg_eq_none hcc]
    constructor
    · intro p hp
      rw [updAdd_length, List.length_append]
      rcases mem_updExact hp with hp' | ⟨rfl, -, -⟩
      · exact lt_of_lt_of_le (hb.1 p hp') (by simp)
      · simp
    · intro q hq j hj
      rw [updAdd_length, List.length_append]
      rcases mem_insertBucket hq hj with ⟨q', hq', hj'⟩ | rfl
      · exact lt_of_lt_of_le (hb.2 q' hq' j hj') (by simp)
      · simp

/-- The multiset of all messages held by a list of clusters. -/
def listMsgs (cs : List MessageCluster) : Multiset Message :=
  (cs.map fun c => (c.messages : Multiset Message)).sum

theorem listMsgs_perm {cs cs' : List MessageCluster} (h : cs.Perm cs') :
    listMsgs cs = listMsgs cs' := (h.map _).sum_eq

theorem listMsgs_card :
    ∀ cs : List MessageCluster, Multiset.card (listMsgs cs) = (cs.map MessageCluster.total).sum := by
  intro cs
  induction cs with
  | nil => rfl
  | cons c cs ih =>
    simp only [listMsgs, List.map_cons, List.sum_cons, Multiset.card_add, Multiset.coe_card]
    simp only [listMsgs] at ih
    rw [ih]
    rfl

theorem coe_flatMap_messages :
    ∀ cs : List MessageCluster,
      ((cs.flatMap fun c => c.messages : List Message) : Multiset Message) = listMsgs cs := by
  intro cs
  induction cs with
  | nil => rfl
  | cons c cs ih =>
    simp only [List.flatMap_cons, listMsgs, List.map_cons, List.sum_cons]
    simp only [listMsgs] at ih
    rw [← ih]
    exact Multiset.coe_eq_coe.mpr (List.Perm.refl _) ▸ rfl

theorem updAdd_listMsgs (m : Message) :
    ∀ (cs : List MessageCluster) (k : Nat), k < cs.length →
      listMsgs (updAdd cs k m) = listMsgs cs + ({m} : Multiset Message) := by
  intro cs
  induction cs with
  | nil => intro k hk; exact absurd hk (by simp)
  | cons c cs ih =>
    intro k hk
    cases k with
    | zero =>
      simp only [updAdd, listMsgs, List.map_cons, List.sum_cons, MessageCluster.add]
      have : ((c.messages ++ [m] : List Message) : Multiset Message) =
          (c.messages : Multiset Message) + {m} := rfl
      rw [this]
      exact add_right_comm _ ({m} : Multiset Message) _
    | succ k =>
      have hk' : k < cs.length := by simpa using hk
      simp only [updAdd, listMsgs, List.map_cons, List.sum_cons]
      have ih' := ih k hk'
      simp only [listMsgs] at ih'
      rw [ih', add_assoc]

theorem stepMsg_listMsgs {t : ℚ} {s : ClusterState} (m : Message) (hb : BoundInv s) :
    listMsgs (stepMsg t s m).1.clusters = listMsgs s.clusters + ({m} : Multiset Message) := by
  cases hcc : chooseCluster t s m.body_normalized with
  | some k =>
    rw [stepMsg_eq_some hcc]
    exact updAdd_listMsgs m s.clusters k (chooseCluster_lt hb hcc)
  | none =>
    rw [stepMsg_eq_none hcc]
    have hlen : s.clusters.length < (s.clusters ++ [(⟨m.body_normalized, m.body, []⟩ : MessageCluster)]).length := by
      simp
    rw [updAdd_listMsgs m _ _ hlen]
    have : listMsgs (s.clusters ++ [(⟨m.body_normalized, m.body, []⟩ : MessageCluster)]) =
        listMsgs s.clusters := by
      simp [listMsgs]
    rw [this]

theorem runAux_conserve (t : ℚ) :
    ∀ (msgs : List Message) (s : ClusterState) (tr : List Nat), BoundInv s →
      BoundInv (runAux t (s, tr) msgs).1 ∧
        listMsgs (runAux t (s, tr) msgs).1.clusters = listMsgs s.clusters + ↑msgs := by
  intro msgs
  induction msgs with
  | nil => intro s tr hb; exact ⟨hb, by simp [runAux]⟩
  | cons m ms ih =>
    intro s tr hb
    rw [runAux]
    rcases ih (stepMsg t s m).1 (tr ++ [(stepMsg t s m).2]) (boundInv_step m hb) with ⟨h1, h2⟩
    refine ⟨h1, ?_⟩
    rw [h2, stepMsg_listMsgs m hb]
    have : (m :: ms : Multiset Message) = {m} + (ms : Multiset Message) := rfl
    rw [this, add_assoc]

/-- `sum(cluster.total for cluster in output)`. -/
def sumTotals (cs : List MessageCluster) : Nat := (cs.map MessageCluster.total).sum

theorem rawClusters_listMsgs (msgs : List Message) (t : ℚ) :
    listMsgs (rawClusters msgs t) = ↑msgs := by
  unfold rawClusters runClusters
  rcases runAux_conserve t msgs initState [] initState_bound with ⟨-, h⟩
  rw [h]
  simp [listMsgs, initState]

theorem cluster_messages_listMsgs (msgs : List Message) (t : ℚ) :
    listMsgs (cluster_messages msgs t) = ↑msgs := by
  rw [cluster_messages, listMsgs_perm (sortByTotal_perm _), rawClusters_listMsgs]

theorem sumTotals_cluster_messages (msgs : List Message) (t : ℚ) :
    sumTotals (cluster_messages msgs t) = msgs.length := by
  have h := congrArg Multiset.card (cluster_messages_listMsgs msgs t)
  rw [listMsgs_card] at h
  simpa [sumTotals] using h

/-- C4: every input message ends up in exactly one output cluster (the
concatenated members of the output are a permutation of the input), so the
member counts of the output clusters sum to the number of input messages;
and, counting from raw workbook rows, the cluster totals plus the rows
dropped at load time add up to the number of input rows.  This holds for
every threshold, in particular for every threshold in `(0, 1]`. -/
theorem c4_theorem (msgs : List Message) (rows : List Row) (t : ℚ) :
    ((cluster_messages msgs t).flatMap fun c => c.messages).Perm msgs ∧
      sumTotals (cluster_messages msgs t) = msgs.length ∧
      sumTotals (cluster_messages (loadRows rows) t) + droppedCount rows = rows.length := by
  refine ⟨?_, sumTotals_cluster_messages msgs t, ?_⟩
  · rw [← Multiset.coe_eq_coe, coe_flatMap_messages, cluster_messages_listMsgs]
  · rw [sumTotals_cluster_messages (loadRows rows) t]
    unfold loadRows droppedCount
    exact length_eq_filterMap_add_dropped loadRow rows

/-! ## Claim C10 support: the exact-match index and assignment traces -/

theorem lookupExact_cons_self {idx : List (List Char × Nat)} {n : List Char} {k : Nat} :
    lookupExact ((n, k) :: idx) n = some k := by
  unfold lookupExact
  simp [List.find?_cons]

theorem lookupExact_cons_ne {idx : List (List Char × Nat)} {n n' : List Char} {k : Nat}
    (h : n' ≠ n) : lookupExact ((n, k) :: idx) n' = lookupExact idx n' := by
  unfold lookupExact
  rw [List.find?_cons]
  have : ((n, k).1 == n') = false := by simpa using fun hc => h hc.symm
  rw [this]

theorem lookupExact_updExact_ne {idx : List (List Char × Nat)} {n n' : List Char} {k : Nat}
    (h : n' ≠ n) : lookupExact (updExact idx n k) n' = lookupExact idx n' := by
  unfold updExact
  by_cases h1 : n = []
  · rw [if_pos h1]
  · rw [if_neg h1]
    by_cases h2 : (lookupExact idx n).isSome
    · rw [if_pos h2]
    · rw [if_neg h2]
      exact lookupExact_cons_ne h

theorem lookupExact_updExact_self {idx : List (List Char × Nat)} {n : List Char} {k : Nat}
    (hn : n ≠ []) :
    lookupExact (updExact idx n k) n = some ((lookupExact idx n).getD k) := by
  unfold updExact
  rw [if_neg hn]
  cases hl : lookupExact idx n with
  | none => simp only [hl, Option.isSome_none, Bool.false_eq_true, if_neg, not_false_iff,
      Option.getD_none]; exact lookupExact_cons_self
  | some j => simp [hl]

theorem chooseCluster_of_exact {t : ℚ} {s : ClusterState} {n : List Char} {j : Nat}
    (hn : n ≠ []) (h : lookupExact s.exactIndex n = some j) :
    chooseCluster t s n = some j := by
  unfold chooseCluster findExact
  rw [if_neg hn, h]

/-- The running relation between the exact-match index, the processed prefix
of the input and the trace of assigned cluster indices: every processed
message with a non-empty normalized body has its normalized body in the index,
bound to the cluster index it was assigned. -/
def TraceInv (s : ClusterState) (processed : List Message) (tr : List Nat) : Prop :=
  tr.length = processed.length ∧
  ∀ i (hi : i < processed.length), (processed.get ⟨i, hi⟩).body_normalized ≠ [] →
    lookupExact s.exactIndex (processed.get ⟨i, hi⟩).body_normalized = some (tr.getD i 0)

theorem stepMsg_exactIndex (t : ℚ) (s : ClusterState) (m : Message) :
    (stepMsg t s m).1.exactIndex =
      updExact s.exactIndex m.body_normalized (stepMsg t s m).2 := by
  cases hcc : chooseCluster t s m.body_normalized with
  | some k => rw [stepMsg_eq_some hcc]
  | none => rw [stepMsg_eq_none hcc]

theorem stepMsg_assigned_of_exact {t : ℚ} {s : ClusterState} {m : Message} {j : Nat}
    (hn : m.body_normalized ≠ []) (h : lookupExact s.exactIndex m.body_normalized = some j) :
    (stepMsg t s m).2 = j := by
  rw [stepMsg_eq_some (chooseCluster_of_exact hn h)]

theorem traceInv_step {t : ℚ} {s : ClusterState} {pr : List Message} {tr : List Nat}
    (m : Message) (h : TraceInv s pr tr) :
    TraceInv (stepMsg t s m).1 (pr ++ [m]) (tr ++ [(stepMsg t s m).2]) := by
  rcases h with ⟨hlen, hidx⟩
  constructor
  · simp [hlen]
  · intro i hi hne
    rw [stepMsg_exactIndex]
    by_cases hip : i < pr.length
    · -- an already-processed message keeps its binding
      have hgetm : (pr ++ [m]).get ⟨i, hi⟩ = pr.get ⟨i, hip⟩ := by
        simp only [List.get_eq_getElem]
        exact List.getElem_append_left hip
      rw [hgetm] at hne ⊢
      have hold := hidx i hip hne
      have htr : i < tr.length := by omega
      have hgd : (tr ++ [(stepMsg t s m).2]).getD i 0 = tr.getD i 0 := by
        rw [List.getD_eq_getElem?_getD, List.getD_eq_getElem?_getD,
          List.getElem?_append_left htr]
      rw [hgd]
      by_cases hkey : (pr.get ⟨i, hip⟩).body_normalized = m.body_normalized
      · -- same key: the index already holds it, so updExact is a no-op
        rw [hkey, lookupExact_updExact_self (hkey ▸ hne), ← hkey, hold]
        rfl
      · rw [lookupExact_updExact_ne hkey]
        exact hold
    · -- the newly processed message
      have hieq : i = pr.length := by
        have : i < pr.length + 1 := by simpa using hi
        omega
      have hgetm : (pr ++ [m]).get ⟨i, hi⟩ = m := by
        simp only [List.get_eq_getElem]
        subst hieq
        simp
      rw [hgetm] at hne ⊢
      have hgd : (tr ++ [(stepMsg t s m).2]).getD i 0 = (stepMsg t s m).2 := by
        rw [List.getD_eq_getElem?_getD, List.getElem?_append_right (by omega : tr.length ≤ i)]
        have : i - tr.length = 0 := by omega
        rw [this]
        rfl
      rw [hgd, lookupExact_updExact_self hne]
      cases hl : lookupExact s.exactIndex m.body_normalized with
      | none => simp
      | some j => simp [stepMsg_assigned_of_exact hne hl]

theorem runAux_trace (t : ℚ) :
    ∀ (msgs : List Message) (s : ClusterState) (tr : List Nat) (pr : List Message),
      TraceInv s pr tr →
      TraceInv (runAux t (s, tr) msgs).1 (pr ++ msgs) (runAux t (s, tr) msgs).2 := by
  intro msgs
  induction msgs with
  | nil => intro s tr pr h; simpa [runAux] using h
  | cons m ms ih =>
    intro s tr pr h
    rw [runAux]
    have h' : TraceInv (stepMsg t s m).1 (pr ++ [m]) (tr ++ [(stepMsg t s m).2]) :=
      traceInv_step m h
    have := ih (stepMsg t s m).1 (tr ++ [(stepMsg t s m).2]) (pr ++ [m]) h'
    simpa [List.append_assoc] using this

/-- C10: two messages with the same non-empty normalized body are always
assigned to the same cluster, whatever that body's relation to the cluster's
representative -- because the exact-match index registers every member's
normalized body (bound to the cluster of the first message carrying it), not
only representatives. -/
theorem c10_theorem (msgs : List Message) (t : ℚ) (i j : Nat)
    (hi : i < msgs.length) (hj : j < msgs.length)
    (hn : (msgs.get ⟨i, hi⟩).body_normalized = (msgs.get ⟨j, hj⟩).body_normalized)
    (hne : (msgs.get ⟨i, hi⟩).body_normalized ≠ []) :
    (assignments msgs t)[i]? = (assignments msgs t)[j]? ∧
      ((assignments msgs t)[i]?).isSome = true := by
  have h0 : TraceInv initState [] [] := by
    refine ⟨rfl, ?_⟩
    intro i hi
    exact absurd hi (by simp)
  have hfin := runAux_trace t msgs initState [] [] h0
  simp only [List.nil_append] at hfin
  have hdef : assignments msgs t = (runAux t (initState, []) msgs).2 := rfl
  rcases hfin with ⟨hlen, hidx⟩
  have hI := hidx i hi hne
  have hJ := hidx j hj (by rw [← hn]; exact hne)
  rw [← hn] at hJ
  have heq : (runAux t (initState, []) msgs).2.getD i 0 =
      (runAux t (initState, []) msgs).2.getD j 0 := by
    have := hI.symm.trans hJ
    simpa using this
  have hilen : i < (assignments msgs t).length := by rw [hdef, hlen]; exact hi
  have hjlen : j < (assignments msgs t).length := by rw [hdef, hlen]; exact hj
  have hsome : ∀ (m : Nat), m < (assignments msgs t).length →
      (assignments msgs t)[m]? = some ((assignments msgs t).getD m 0) := by
    intro m hm
    rw [List.getElem?_eq_getElem hm, List.getD_eq_getElem (assignments msgs t) 0 hm]
  refine ⟨?_, by rw [hsome i hilen]; rfl⟩
  rw [hsome i hilen, hsome j hjlen]
  exact congrArg some (by rw [hdef]; exact heq)

/-- Witness for C10 at a concrete input: the first and third messages share
the normalized body `"oi a"` and are routed to the same cluster. -/
theorem c10_witness :
    (assignments [⟨"Oi A".data, "oi a".data⟩, ⟨"zz".data, "zz".data⟩,
        ⟨"Oi  A".data, "oi a".data⟩] (mkRat 7 10))[0]? =
      (assignments [⟨"Oi A".data, "oi a".data⟩, ⟨"zz".data, "zz".data⟩,
        ⟨"Oi  A".data, "oi a".data⟩] (mkRat 7 10))[2]? ∧
      ((assignments [⟨"Oi A".data, "oi a".data⟩, ⟨"zz".data, "zz".data⟩,
        ⟨"Oi  A".data, "oi a".data⟩] (mkRat 7 10))[0]?).isSome = true :=
  c10_theorem _ (mkRat 7 10) 0 2 (by decide) (by decide) (by decide) (by decide)

/-! ## Claims C1 and C2 support: the cluster-content invariant -/

theorem are_similar_true {a b : List Char} {t : ℚ} (h : are_similar a b t = true) :
    a ≠ [] ∧ b ≠ [] ∧ t ≤ smRatio a b := by
  unfold are_similar at h
  by_cases h1 : a = [] ∨ b = []
  · rw [if_pos (by simpa using h1)] at h
    exact absurd h (by simp)
  · push_neg at h1
    rw [if_neg (by simpa using (not_or.mpr h1))] at h
    refine ⟨h1.1, h1.2, ?_⟩
    by_cases h2 : smRealQuickRatio a b < t
    · rw [if_pos h2] at h; exact absurd h (by simp)
    · rw [if_neg h2] at h
      by_cases h3 : smQuickRatio a b < t
      · rw [if_pos h3] at h; exact absurd h (by simp)
      · rw [if_neg h3] at h
        simpa using h

theorem commonPrefixLen_self : ∀ l : List Char, commonPrefixLen l l = l.length := by
  intro l
  induction l with
  | nil => rfl
  | cons c cs ih => simp [commonPrefixLen, ih]

theorem commonPrefixLen_le_left : ∀ x y : List Char, commonPrefixLen x y ≤ x.length := by
  intro x
  induction x with
  | nil => intro y; cases y <;> simp [commonPrefixLen]
  | cons c cs ih =>
    intro y
    cases y with
    | nil => simp [commonPrefixLen]
    | cons d ds =>
      by_cases h : c = d
      · simpa [commonPrefixLen, h] using ih ds
      · simp [commonPrefixLen, h]

theorem commonPrefixLen_le_right : ∀ x y : List Char, commonPrefixLen x y ≤ y.length := by
  intro x
  induction x with
  | nil => intro y; cases y <;> simp [commonPrefixLen]
  | cons c cs ih =>
    intro y
    cases y with
    | nil => simp [commonPrefixLen]
    | cons d ds =>
      by_cases h : c = d
      · simpa [commonPrefixLen, h] using ih ds
      · simp [commonPrefixLen, h]

theorem runSize_le_left (a b : List Char) (ahi bhi i j : Nat) :
    runSize a b ahi bhi i j ≤ ahi - i := by
  refine le_trans (commonPrefixLen_le_left _ _) ?_
  simp [List.length_take]

theorem runSize_le_right (a b : List Char) (ahi bhi i j : Nat) :
    runSize a b ahi bhi i j ≤ bhi - j := by
  refine le_trans (commonPrefixLen_le_right _ _) ?_
  simp [List.length_take]

theorem runSize_self_zero (a : List Char) :
    runSize a a a.length a.length 0 0 = a.length := by
  unfold runSize
  simp [commonPrefixLen_self]

theorem findLongestMatch_self (a : List Char) (ha : a ≠ []) :
    findLongestMatch a a 0 a.length 0 a.length = (0, 0, a.length) := by
  have hpos : 0 < a.length := List.length_pos.mpr ha
  unfold findLongestMatch
  have hr : List.range' 0 (a.length - 0) = 0 :: List.range' 1 (a.length - 1) := by
    rw [Nat.sub_zero]
    cases hn : a.length with
    | zero => omega
    | succ n => rw [List.range'_succ]; simp
  have hinner : ∀ (i : Nat) (l : List Nat),
      l.foldl
        (fun best j =>
          let k := runSize a a a.length a.length i j
          if best.2.2 < k then (i, j, k) else best) (0, 0, a.length) = (0, 0, a.length) := by
    intro i l
    refine foldl_invariant _ (fun best => best = (0, 0, a.length)) _ _ rfl ?_
    intro acc j _ hacc
    subst hacc
    have hk := runSize_le_left a a a.length a.length i j
    simp only []
    rw [if_neg (by omega)]
  have hfirst :
      (0 :: List.range' 1 (a.length - 1)).foldl
        (fun best j =>
          let k := runSize a a a.length a.length 0 j
          if best.2.2 < k then ((0 : Nat), j, k) else best) ((0, 0, 0) : Nat × Nat × Nat) =
        (0, 0, a.length) := by
    rw [List.foldl_cons]
    have hred :
        (let k := runSize a a a.length a.length 0 0
         if ((0, 0, 0) : Nat × Nat × Nat).2.2 < k then ((0 : Nat), (0 : Nat), k)
         else (0, 0, 0)) = (0, 0, a.length) := by
      simp only [runSize_self_zero]
      rw [if_pos (by simpa using hpos)]
    rw [hred]
    exact hinner 0 _
  conv_lhs => rw [hr]
  rw [List.foldl_cons, hfirst]
  refine foldl_invariant _ (fun best => best = (0, 0, a.length)) _ _ rfl ?_
  intro acc i _ hacc
  subst hacc
  exact hinner i _

theorem findLongestMatch_empty_left (a b : List Char) (alo blo bhi : Nat) :
    findLongestMatch a b alo alo blo bhi = (alo, blo, 0) := by
  unfold findLongestMatch
  rw [Nat.sub_self]
  rfl

theorem mtAux_empty_left (a b : List Char) :
    ∀ (fuel alo blo bhi : Nat), matchTotalAux a b fuel alo alo blo bhi = 0 := by
  intro fuel alo blo bhi
  cases fuel with
  | zero => rfl
  | succ f =>
    rw [matchTotalAux]
    rw [findLongestMatch_empty_left]
    rfl

theorem matchTotal_self (a : List Char) : matchTotal a a = a.length := by
  by_cases ha : a = []
  · subst ha; rfl
  · have hpos : 0 < a.length := List.length_pos.mpr ha
    unfold matchTotal
    cases hf : a.length + a.length with
    | zero => omega
    | succ f =>
      rw [matchTotalAux]
      rw [findLongestMatch_self a ha]
      simp only []
      rw [if_neg (by omega)]
      rw [mtAux_empty_left]
      have h2 : (0 : Nat) + a.length = a.length := by omega
      rw [h2, mtAux_empty_left]
      omega

theorem smRatio_self (a : List Char) : smRatio a a = 1 := by
  unfold smRatio calcRatio
  by_cases ha : a = []
  · subst ha; simp
  · have hpos : 0 < a.length := List.length_pos.mpr ha
    rw [matchTotal_self, if_neg (by omega)]
    rw [Rat.mkRat_eq_div]
    push_cast
    rw [two_mul]
    have hne : ((a.length : ℚ) + a.length) ≠ 0 := by
      have h3 : (0 : ℚ) < (a.length : ℚ) + a.length := by
        exact_mod_cast Nat.add_pos_left hpos a.length
      exact ne_of_gt h3
    rw [div_self hne]

theorem mem_updAdd {m : Message} {c' : MessageCluster} :
    ∀ {cs : List MessageCluster} {k : Nat}, c' ∈ updAdd cs k m →
      (∃ i, i ≠ k ∧ cs[i]? = some c') ∨ (∃ c, cs[k]? = some c ∧ c' = c.add m) := by
  intro cs
  induction cs with
  | nil => intro k h; exact absurd h (by simp [updAdd])
  | cons c0 cs ih =>
    intro k h
    cases k with
    | zero =>
      rcases List.mem_cons.mp h with rfl | h'
      · exact Or.inr ⟨c0, by simp, rfl⟩
      · rcases List.getElem?_of_mem h' with ⟨i, hi⟩
        exact Or.inl ⟨i + 1, Nat.succ_ne_zero i, by simpa using hi⟩
    | succ k =>
      rcases List.mem_cons.mp h with rfl | h'
      · exact Or.inl ⟨0, by omega, by simp⟩
      · rcases ih h' with ⟨i, hik, hi⟩ | ⟨c, hc, rfl⟩
        · exact Or.inl ⟨i + 1, by omega, by simpa using hi⟩
        · exact Or.inr ⟨c, by simpa using hc, rfl⟩

theorem updAdd_getElem? (m : Message) :
    ∀ (cs : List MessageCluster) (k i : Nat),
      (updAdd cs k m)[i]? =
        if i = k then (cs[k]?).map (fun c => c.add m) else cs[i]? := by
  intro cs
  induction cs with
  | nil => intro k i; simp [updAdd]
  | cons c0 cs ih =>
    intro k i
    cases k with
    | zero =>
      cases i with
      | zero => simp [updAdd]
      | succ i => simp [updAdd]
    | succ k =>
      cases i with
      | zero => simp [updAdd]
      | succ i =>
        simp only [updAdd, List.getElem?_cons_succ]
        rw [ih k i]
        by_cases h : i = k
        · simp [h]
        · have h' : i + 1 ≠ k + 1 := by omega
          simp [h, h']

theorem chooseCluster_cases {t : ℚ} {s : ClusterState} {n : List Char} {k : Nat}
    (h : chooseCluster t s n = some k) :
    (n ≠ [] ∧ lookupExact s.exactIndex n = some k) ∨ are_similar n (repOf s k) t = true := by
  unfold chooseCluster at h
  cases he : findExact s n with
  | some j =>
    rw [he] at h
    have hj : j = k := by simpa using h
    subst hj
    unfold findExact at he
    by_cases hn : n = []
    · rw [if_pos hn] at he; exact absurd he (by simp)
    · rw [if_neg hn] at he; exact Or.inl ⟨hn, he⟩
  | none =>
    rw [he] at h
    simp only at h
    cases hf : findInBucket t s n (lookupBucket s.prefixIndex (n.take 40)) with
    | some j =>
      rw [hf] at h
      have hj : j = k := by simpa using h
      subst hj
      unfold findInBucket at hf
      have hpj := List.find?_some hf
      simp only [] at hpj
      exact Or.inr hpj
    | none =>
      rw [hf] at h
      simp only at h
      unfold findFallback at h
      have hp := List.find?_some h
      simp only [] at hp
      by_cases h1 : (lookupBucket s.prefixIndex (n.take 40)).contains k = true
      · rw [if_pos h1] at hp; exact absurd hp (by simp)
      · rw [if_neg h1] at hp
        by_cases h2 : lengthSkip t n (repOf s k) = true
        · rw [if_pos h2] at hp; exact absurd hp (by simp)
        · rw [if_neg h2] at hp; exact Or.inr hp

theorem append_last_inj {α : Type _} {l₁ l₂ : List α} {a b : α}
    (h : l₁ ++ [a] = l₂ ++ [b]) : l₁ = l₂ ∧ a = b := by
  have h' := congrArg List.reverse h
  simp only [List.reverse_append, List.reverse_singleton, List.singleton_append] at h'
  obtain ⟨h1, h2⟩ := List.cons.inj h'
  exact ⟨List.reverse_inj.mp h2, h1⟩

theorem append_singleton_decomp {α : Type _} {pre post l : List α} {x m : α}
    (h : pre ++ x :: post = l ++ [m]) :
    (pre = l ∧ x = m ∧ post = []) ∨ ∃ post', post = post' ++ [m] ∧ l = pre ++ x :: post' := by
  rcases List.eq_nil_or_concat post with rfl | ⟨post', pm, rfl⟩
  · left
    have h1 : pre ++ [x] = l ++ [m] := by simpa using h
    rcases append_last_inj h1 with ⟨h2, h3⟩
    exact ⟨h2, h3, rfl⟩
  · right
    have h2 : (pre ++ x :: post') ++ [pm] = l ++ [m] := by
      rw [← h]
      simp [List.concat_eq_append]
    rcases append_last_inj h2 with ⟨h3, h4⟩
    exact ⟨post', by rw [h4, List.concat_eq_append], h3.symm⟩

/-- The per-cluster similarity invariant: every member was accepted against
the representative by the full ratio, or repeats the normalized body of an
earlier member of the same cluster (exact-match routing); and an
empty-normalized member forces an empty representative. -/
def MemberInv (t : ℚ) (c : MessageCluster) : Prop :=
  ∀ pre m post, c.messages = pre ++ m :: post →
    ((t ≤ smRatio m.body_normalized c.representative) ∨
      m.body_normalized ∈ pre.map (fun x => x.body_normalized)) ∧
    (m.body_normalized = [] → c.representative = [])

/-- The content invariant of the clusterer state: every cluster satisfies
`MemberInv`; clusters with empty representative hold exactly one message,
whose normalized body is empty; and every exact-index entry has a non-empty
key and points to a cluster with non-empty representative containing a member
with that normalized body. -/
def RichInv (t : ℚ) (s : ClusterState) : Prop :=
  (∀ c ∈ s.clusters, MemberInv t c) ∧
  (∀ c ∈ s.clusters, c.representative = [] →
    ∃ m, c.messages = [m] ∧ m.body_normalized = []) ∧
  (∀ p ∈ s.exactIndex, p.1 ≠ [] ∧
    ∃ c, s.clusters[p.2]? = some c ∧ c.representative ≠ [] ∧
      ∃ m ∈ c.messages, m.body_normalized = p.1)

theorem initState_rich (t : ℚ) : RichInv t initState := by
  refine ⟨?_, ?_, ?_⟩ <;> intro c hc <;> simp [initState] at hc

theorem richInv_step {t : ℚ} {s : ClusterState} (m : Message) (ht : t ≤ 1)
    (hb : BoundInv s) (hr : RichInv t s) : RichInv t (stepMsg t s m).1 := by
  cases hcc : chooseCluster t s m.body_normalized with
  | some k =>
    rw [stepMsg_eq_some hcc]
    have hk := chooseCluster_lt hb hcc
    -- the routing fact: the target holds either a ratio-accepting
    -- representative or an existing member with the same normalized body
    have hmain : m.body_normalized ≠ [] ∧
        ∃ ck, s.clusters[k]? = some ck ∧ ck.representative ≠ [] ∧
          ((t ≤ smRatio m.body_normalized ck.representative) ∨
            ∃ m0 ∈ ck.messages, m0.body_normalized = m.body_normalized) := by
      rcases chooseCluster_cases hcc with ⟨hn, hlk⟩ | hsim
      · rcases hr.2.2 _ (lookupExact_mem hlk) with ⟨-, c0, hc0, hrep0, m0, hm0, hnb0⟩
        exact ⟨hn, c0, hc0, hrep0, Or.inr ⟨m0, hm0, hnb0⟩⟩
      · rcases are_similar_true hsim with ⟨hn, hrep, hle⟩
        obtain ⟨ck, hck⟩ : ∃ ck, s.clusters[k]? = some ck :=
          ⟨s.clusters[k], List.getElem?_eq_getElem hk⟩
        have hrepeq : repOf s k = ck.representative := by
          unfold repOf; rw [hck]; rfl
        rw [hrepeq] at hrep hle
        exact ⟨hn, ck, hck, hrep, Or.inl hle⟩
    rcases hmain with ⟨hnne, ck, hck, hrepne, hacc⟩
    refine ⟨?_, ?_, ?_⟩
    · -- MemberInv for every cluster of the new state
      intro c' hc'
      rcases mem_updAdd hc' with ⟨i, hik, hi⟩ | ⟨c, hc, rfl⟩
      · exact hr.1 c' (List.getElem?_mem hi)
      · have hceq : c = ck := by rw [hc] at hck; exact Option.some.inj hck
        subst hceq
        intro pre x post heq
        have heq' : pre ++ x :: post = c.messages ++ [m] := by
          simpa [MessageCluster.add] using heq.symm
        rcases append_singleton_decomp heq' with ⟨hpre, hxm, hpost⟩ | ⟨post', hpost, hcm⟩
        · subst hpre; subst hxm
          constructor
          · rcases hacc with hle | ⟨m0, hm0, hnb0⟩
            · exact Or.inl hle
            · exact Or.inr (List.mem_map.mpr ⟨m0, hm0, hnb0⟩)
          · intro hxe; exact absurd hxe hnne
        · exact hr.1 c (List.getElem?_mem hck) pre x post' hcm
    · -- empty-representative clusters stay singletons
      intro c' hc'
      rcases mem_updAdd hc' with ⟨i, hik, hi⟩ | ⟨c, hc, rfl⟩
      · exact hr.2.1 c' (List.getElem?_mem hi)
      · have hceq : c = ck := by rw [hc] at hck; exact Option.some.inj hck
        subst hceq
        intro hrep
        exact absurd hrep hrepne
    · -- exact-index entries
      intro p hp
      rcases mem_updExact hp with hp' | ⟨rfl, hn, -⟩
      · rcases hr.2.2 p hp' with ⟨hne, c0, hc0, hrep0, m0, hm0, hnb0⟩
        refine ⟨hne, ?_⟩
        by_cases hpk : p.2 = k
        · subst hpk
          have hceq : c0 = ck := by rw [hc0] at hck; exact Option.some.inj hck
          subst hceq
          refine ⟨c0.add m, ?_, hrep0, m0, ?_, hnb0⟩
          · rw [updAdd_getElem? m s.clusters p.2 p.2, if_pos rfl, hc0]; rfl
          · simp [MessageCluster.add, List.mem_append, hm0]
        · refine ⟨c0, ?_, hrep0, m0, hm0, hnb0⟩
          rw [updAdd_getElem? m s.clusters k p.2, if_neg hpk]
          exact hc0
      · refine ⟨hnne, ck.add m, ?_, hrepne, m, ?_, rfl⟩
        · rw [updAdd_getElem? m s.clusters k k, if_pos rfl, hck]; rfl
        · simp [MessageCluster.add]
  | none =>
    rw [stepMsg_eq_none hcc]
    set newc : MessageCluster := ⟨m.body_normalized, m.body, []⟩ with hnewc
    have hcat : (s.clusters ++ [newc])[s.clusters.length]? = some newc :=
      List.getElem?_concat_length s.clusters newc
    refine ⟨?_, ?_, ?_⟩
    · intro c' hc'
      rcases mem_updAdd hc' with ⟨i, hik, hi⟩ | ⟨c, hc, rfl⟩
      · by_cases hil : i < s.clusters.length
        · rw [List.getElem?_append_left hil] at hi
          exact hr.1 c' (List.getElem?_mem hi)
        · rw [List.getElem?_eq_none (by simp; omega)] at hi
          exact absurd hi (by simp)
      · have hceq : c = newc := by rw [hc] at hcat; exact Option.some.inj hcat
        subst hceq
        intro pre x post heq
        have heq' : pre ++ x :: post = [] ++ [m] := by
          simpa [MessageCluster.add, hnewc] using heq.symm
        rcases append_singleton_decomp heq' with ⟨hpre, hxm, hpost⟩ | ⟨post', hpost, hcm⟩
        · subst hpre
          constructor
          · left
            rw [hxm]
            have hrep : (newc.add m).representative = m.body_normalized := rfl
            rw [hrep, smRatio_self]
            exact ht
          · intro hxe
            have hme : m.body_normalized = [] := by rw [← hxm]; exact hxe
            show (newc.add m).representative = []
            rw [show (newc.add m).representative = m.body_normalized from rfl, hme]
        · exact absurd hcm.symm (by simp)
    · intro c' hc'
      rcases mem_updAdd hc' with ⟨i, hik, hi⟩ | ⟨c, hc, rfl⟩
      · by_cases hil : i < s.clusters.length
        · rw [List.getElem?_append_left hil] at hi
          exact hr.2.1 c' (List.getElem?_mem hi)
        · rw [List.getElem?_eq_none (by simp; omega)] at hi
          exact absurd hi (by simp)
      · have hceq : c = newc := by rw [hc] at hcat; exact Option.some.inj hcat
        subst hceq
        intro hrep
        refine ⟨m, rfl, ?_⟩
        simpa [hnewc, MessageCluster.add] using hrep
    · intro p hp
      rcases mem_updExact hp with hp' | ⟨rfl, hn, -⟩
      · rcases hr.2.2 p hp' with ⟨hne, c0, hc0, hrep0, m0, hm0, hnb0⟩
        have hplt : p.2 < s.clusters.length := by
          rcases List.getElem?_eq_some.mp hc0 with ⟨h, -⟩
          exact h
        refine ⟨hne, c0, ?_, hrep0, m0, hm0, hnb0⟩
        rw [updAdd_getElem? m _ _ _, if_neg (by omega), List.getElem?_append_left hplt]
        exact hc0
      · refine ⟨hn, newc.add m, ?_, hn, m, ?_, rfl⟩
        · rw [updAdd_getElem? m _ _ _, if_pos rfl, hcat]; rfl
        · simp [MessageCluster.add, hnewc]

theorem runAux_rich (t : ℚ) (ht : t ≤ 1) :
    ∀ (msgs : List Message) (s : ClusterState) (tr : List Nat),
      BoundInv s → RichInv t s →
      BoundInv (runAux t (s, tr) msgs).1 ∧ RichInv t (runAux t (s, tr) msgs).1 := by
  intro msgs
  induction msgs with
  | nil => intro s tr hb hr; simpa [runAux] using ⟨hb, hr⟩
  | cons m ms ih =>
    intro s tr hb hr
    rw [runAux]
    exact ih (stepMsg t s m).1 _ (boundInv_step m hb) (richInv_step m ht hb hr)

theorem cluster_messages_memberInv {msgs : List Message} {t : ℚ} (ht : t ≤ 1) :
    ∀ c ∈ cluster_messages msgs t, MemberInv t c ∧
      (c.representative = [] → ∃ m, c.messages = [m] ∧ m.body_normalized = []) := by
  intro c hc
  have hmem : c ∈ rawClusters msgs t := (sortByTotal_perm _).mem_iff.mp hc
  have hrun := runAux_rich t ht msgs initState [] initState_bound (initState_rich t)
  have hraw : rawClusters msgs t = (runAux t (initState, []) msgs).1.clusters := rfl
  rw [hraw] at hmem
  exact ⟨hrun.2.1 c hmem, hrun.2.2.1 c hmem⟩

/-- C1: in every output cluster, each member's normalized body either reaches
the threshold under the full `SequenceMatcher` ratio against the cluster's
representative, or equals the normalized body of an earlier member of the
same cluster (routed in by the exact-match index); and a member with empty
normalized body only ever sits in a cluster whose representative is empty. -/
theorem c1_theorem (msgs : List Message) (t : ℚ) (ht : t ≤ 1) :
    ∀ c ∈ cluster_messages msgs t, ∀ pre m post, c.messages = pre ++ m :: post →
      ((t ≤ smRatio m.body_normalized c.representative) ∨
        m.body_normalized ∈ pre.map (fun x => x.body_normalized)) ∧
      (m.body_normalized = [] → c.representative = []) := by
  intro c hc
  exact (cluster_messages_memberInv ht c hc).1

/-- Witness for C1 at a concrete input: in the two-message run below both
messages land in one cluster; instantiating the theorem at its second member
shows that member similar enough to the representative. -/
theorem c1_witness :
    ((mkRat 7 10 ≤ smRatio "oi amigo b".data "oi amigo a".data) ∨
      ("oi amigo b".data ∈ [(⟨"Oi amigo a".data, "oi amigo a".data⟩ : Message)].map
        (fun x => x.body_normalized))) ∧
      ("oi amigo b".data = ([] : List Char) → "oi amigo a".data = ([] : List Char)) := by
  have h := c1_theorem
    [⟨"Oi amigo a".data, "oi amigo a".data⟩, ⟨"Oi amigo b".data, "oi amigo b".data⟩]
    (mkRat 7 10) (by decide)
    ⟨"oi amigo a".data, "Oi amigo a".data,
      [⟨"Oi amigo a".data, "oi amigo a".data⟩, ⟨"Oi amigo b".data, "oi amigo b".data⟩]⟩
    (by decide)
    [⟨"Oi amigo a".data, "oi amigo a".data⟩]
    ⟨"Oi amigo b".data, "oi amigo b".data⟩ [] (by decide)
  exact h

/-- C2 (amended): a message whose normalized body is empty always creates a
fresh cluster of its own -- it is never matched into any existing cluster by
similarity or by the exact-match index -- so it is the only member of its
cluster and that cluster's representative is the empty string.  (The claim's
"single shared no-body cluster" does not hold; see the counterexample.) -/
theorem c2_theorem (msgs : List Message) (t : ℚ) (ht : t ≤ 1) :
    ∀ c ∈ cluster_messages msgs t, ∀ m ∈ c.messages, m.body_normalized = [] →
      c.representative = [] ∧ c.messages = [m] := by
  intro c hc m hm hme
  rcases List.append_of_mem hm with ⟨pre, post, hdecomp⟩
  have h1 := (cluster_messages_memberInv ht c hc).1 pre m post hdecomp
  have hrep : c.representative = [] := h1.2 hme
  rcases (cluster_messages_memberInv ht c hc).2 hrep with ⟨m', hm', -⟩
  have : m = m' := by
    rw [hm'] at hm
    simpa using hm
  subst this
  exact ⟨hrep, hm'⟩

/-- Counterexample to C2 as stated: two messages with empty normalized bodies
produce two distinct singleton clusters, not one shared "no-body" cluster. -/
theorem c2_counterexample :
    (cluster_messages [⟨"!!".data, []⟩, ⟨"??".data, []⟩] (mkRat 7 10)).length = 2 ∧
      cluster_messages [⟨"!!".data, []⟩, ⟨"??".data, []⟩] (mkRat 7 10) =
        [⟨[], "!!".data, [⟨"!!".data, []⟩]⟩, ⟨[], "??".data, [⟨"??".data, []⟩]⟩] := by
  constructor
  · decide
  · decide

/-- Witness for C2 (amended) at a concrete input: the empty-normalized
message below is the lone member of its cluster, whose representative is
empty. -/
theorem c2_witness :
    ((⟨[], "!!".data, [⟨"!!".data, []⟩]⟩ : MessageCluster).representative = [] ∧
      (⟨[], "!!".data, [⟨"!!".data, []⟩]⟩ : MessageCluster).messages = [⟨"!!".data, []⟩]) := by
  have h := c2_theorem [⟨"!!".data, []⟩] (mkRat 7 10) (by decide)
    ⟨[], "!!".data, [⟨"!!".data, []⟩]⟩ (by decide) ⟨"!!".data, []⟩ (by decide) (by decide)
  exact h

/-! ## Claim C9: which rows the loader drops -/

/-- C9 (amended): the loading loop drops a row exactly when no cell of the
row is truthy or the `body`-else-`texto` cell is falsy (missing or the empty
string).  A whitespace-only body is truthy, so such a row is *not* dropped:
it yields a `Message` whose stripped body and normalized body are both empty
(see the counterexample, where it then occupies an output cluster of its
own). -/
theorem c9_theorem (r : Row) :
    loadRow r = none ↔
      r.any (fun p => cellTruthy p.2) = false ∨
      cellTruthy (pyOr (rowGet r "body".data) (rowGet r "texto".data)) = false := by
  unfold loadRow
  by_cases h1 : r.any (fun p => cellTruthy p.2) = false
  · simp [h1]
  · rw [if_neg h1]
    cases h2 : pyOr (rowGet r "body".data) (rowGet r "texto".data) with
    | none => simp [h1, cellTruthy]
    | some s =>
      by_cases h3 : s = []
      · simp [h1, h3, cellTruthy]
      · show (if s = [] then none
            else some (⟨pyStrip s, normalize_body s⟩ : Message)) = none ↔ _
        rw [if_neg h3]
        constructor
        · intro hc; exact absurd hc (by simp)
        · intro hc
          rcases hc with hc | hc
          · exact absurd hc h1
          · exact absurd hc (by simp [cellTruthy, List.isEmpty_iff, h3])

/-- Counterexample to C9 as stated: a whitespace-only body -- which "becomes
empty after the pipeline's strip" -- is not dropped; the row produces a
`Message` (with empty body and empty normalized body) that shows up as an
output cluster and raises `total_clusters` to 1. -/
theorem c9_counterexample :
    loadRow [("body".data, some " ".data)] = some ⟨[], []⟩ ∧
      (cluster_messages (loadRows [[("body".data, some " ".data)]]) (mkRat 7 10)).length
        = 1 := by
  constructor
  · decide
  · decide

/-! ## Claim C5: threshold monotonicity fails; the pairwise test is
anti-monotone -/

theorem are_similar_iff_components (a b : List Char) (t : ℚ) :
    are_similar a b t = true ↔
      a ≠ [] ∧ b ≠ [] ∧ t ≤ smRealQuickRatio a b ∧ t ≤ smQuickRatio a b ∧
        t ≤ smRatio a b := by
  unfold are_similar
  by_cases h1 : a = [] ∨ b = []
  · rw [if_pos (by simpa using h1)]
    simp only [Bool.false_eq_true, false_iff]
    intro hc
    rcases h1 with h | h
    · exact hc.1 h
    · exact hc.2.1 h
  · push_neg at h1
    rw [if_neg (by simpa using (not_or.mpr h1))]
    by_cases h2 : smRealQuickRatio a b < t
    · rw [if_pos h2]
      simp only [Bool.false_eq_true, false_iff]
      intro hc
      exact absurd hc.2.2.1 (not_le.mpr h2)
    · rw [if_neg h2]
      by_cases h3 : smQuickRatio a b < t
      · rw [if_pos h3]
        simp only [Bool.false_eq_true, false_iff]
        intro hc
        exact absurd hc.2.2.2.1 (not_le.mpr h3)
      · rw [if_neg h3]
        simp [h1.1, h1.2, not_lt.mp h2, not_lt.mp h3]

/-- C5 (amended): the pairwise acceptance test is anti-monotone in the
threshold -- raising the threshold never turns a rejected pair into an
accepted one.  The *number of clusters*, however, is not monotone in the
threshold (see the counterexample). -/
theorem c5_theorem (a b : List Char) (t1 t2 : ℚ) (h12 : t1 ≤ t2)
    (h : are_similar a b t2 = true) : are_similar a b t1 = true := by
  rcases (are_similar_iff_components a b t2).mp h with ⟨ha, hb, h1, h2, h3⟩
  exact (are_similar_iff_components a b t1).mpr
    ⟨ha, hb, le_trans h12 h1, le_trans h12 h2, le_trans h12 h3⟩

/-- Witness for C5 (amended) at a concrete input. -/
theorem c5_witness : are_similar "ab".data "ab".data (mkRat 1 2) = true :=
  c5_theorem "ab".data "ab".data (mkRat 1 2) (mkRat 7 10) (by decide) (by decide)

/-- Counterexample to C5 as stated: on this four-message input, raising the
threshold from `11/20` to `7/10` *decreases* the cluster count from 3 to 2
(at the lower threshold the second message is captured by the first message's
cluster, leaving the third and fourth without a close-enough representative;
at the higher threshold the second message anchors its own cluster, which
then absorbs both of them). -/
theorem c5_counterexample :
    (mkRat 11 20 : ℚ) ≤ mkRat 7 10 ∧
      (cluster_messages
        [⟨"cccddduuuuuu".data, "cccddduuuuuu".data⟩,
         ⟨"ccccdddd".data, "ccccdddd".data⟩,
         ⟨"ccccddzz".data, "ccccddzz".data⟩,
         ⟨"wwccdddd".data, "wwccdddd".data⟩] (mkRat 11 20)).length = 3 ∧
      (cluster_messages
        [⟨"cccddduuuuuu".data, "cccddduuuuuu".data⟩,
         ⟨"ccccdddd".data, "ccccdddd".data⟩,
         ⟨"ccccddzz".data, "ccccddzz".data⟩,
         ⟨"wwccdddd".data, "wwccdddd".data⟩] (mkRat 7 10)).length = 2 ∧
      ¬ ((cluster_messages
        [⟨"cccddduuuuuu".data, "cccddduuuuuu".data⟩,
         ⟨"ccccdddd".data, "ccccdddd".data⟩,
         ⟨"ccccddzz".data, "ccccddzz".data⟩,
         ⟨"wwccdddd".data, "wwccdddd".data⟩] (mkRat 11 20)).length ≤
        (cluster_messages
        [⟨"cccddduuuuuu".data, "cccddduuuuuu".data⟩,
         ⟨"ccccdddd".data, "ccccdddd".data⟩,
         ⟨"ccccddzz".data, "ccccddzz".data⟩,
         ⟨"wwccdddd".data, "wwccdddd".data⟩] (mkRat 7 10)).length) := by
  refine ⟨by decide, by decide, by decide, by decide⟩

/-! ## Claim C3 support: the quick upper bounds never overrule the full
ratio -/

theorem commonPrefixLen_take_eq :
    ∀ x y : List Char, x.take (commonPrefixLen x y) = y.take (commonPrefixLen x y) := by
  intro x
  induction x with
  | nil => intro y; cases y <;> simp [commonPrefixLen]
  | cons c cs ih =>
    intro y
    cases y with
    | nil => simp [commonPrefixLen]
    | cons d ds =>
      by_cases h : c = d
      · simp only [commonPrefixLen, h, if_pos]
        rw [List.take_succ_cons, List.take_succ_cons, ih ds]
      · simp [commonPrefixLen, h]

theorem runSize_slice_eq (a b : List Char) (ahi bhi i j : Nat) :
    (a.drop i).take (runSize a b ahi bhi i j) =
      (b.drop j).take (runSize a b ahi bhi i j) := by
  have h := commonPrefixLen_take_eq ((a.drop i).take (ahi - i)) ((b.drop j).take (bhi - j))
  rw [List.take_take, List.take_take] at h
  have h1 : min (runSize a b ahi bhi i j) (ahi - i) = runSize a b ahi bhi i j :=
    min_eq_left (runSize_le_left a b ahi bhi i j)
  have h2 : min (runSize a b ahi bhi i j) (bhi - j) = runSize a b ahi bhi i j :=
    min_eq_left (runSize_le_right a b ahi bhi i j)
  unfold runSize at h1 h2 ⊢
  rw [h1, h2] at h
  exact h

theorem findLongestMatch_spec (a b : List Char) (alo ahi blo bhi i j k : Nat)
    (heq : findLongestMatch a b alo ahi blo bhi = (i, j, k)) (hk : k ≠ 0) :
    alo ≤ i ∧ i + k ≤ ahi ∧ blo ≤ j ∧ j + k ≤ bhi ∧
      (a.drop i).take k = (b.drop j).take k := by
  have hmain : (fun best : Nat × Nat × Nat => best.2.2 ≠ 0 →
      alo ≤ best.1 ∧ best.1 + best.2.2 ≤ ahi ∧ blo ≤ best.2.1 ∧
        best.2.1 + best.2.2 ≤ bhi ∧
        (a.drop best.1).take best.2.2 = (b.drop best.2.1).take best.2.2)
      (findLongestMatch a b alo ahi blo bhi) := by
    unfold findLongestMatch
    refine foldl_invariant _
      (fun best : Nat × Nat × Nat => best.2.2 ≠ 0 →
        alo ≤ best.1 ∧ best.1 + best.2.2 ≤ ahi ∧ blo ≤ best.2.1 ∧
          best.2.1 + best.2.2 ≤ bhi ∧
          (a.drop best.1).take best.2.2 = (b.drop best.2.1).take best.2.2)
      _ _ (fun h => absurd rfl h) ?_
    intro acc i' hi' hacc
    refine foldl_invariant _
      (fun best : Nat × Nat × Nat => best.2.2 ≠ 0 →
        alo ≤ best.1 ∧ best.1 + best.2.2 ≤ ahi ∧ blo ≤ best.2.1 ∧
          best.2.1 + best.2.2 ≤ bhi ∧
          (a.drop best.1).take best.2.2 = (b.drop best.2.1).take best.2.2)
      _ _ hacc ?_
    intro acc2 j' hj' hacc2
    simp only []
    by_cases hlt : acc2.2.2 < runSize a b ahi bhi i' j'
    · rw [if_pos hlt]
      intro hkne
      have hkne' : runSize a b ahi bhi i' j' ≠ 0 := hkne
      rcases List.mem_range'_1.mp hi' with ⟨hi1, -⟩
      rcases List.mem_range'_1.mp hj' with ⟨hj1, -⟩
      have hrs1 := runSize_le_left a b ahi bhi i' j'
      have hrs2 := runSize_le_right a b ahi bhi i' j'
      refine ⟨hi1, ?_, hj1, ?_, runSize_slice_eq a b ahi bhi i' j'⟩ <;> dsimp only <;> omega
    · rw [if_neg hlt]
      exact hacc2
  rw [heq] at hmain
  exact hmain hk

theorem mtAux_le_left (a b : List Char) :
    ∀ (fuel alo ahi blo bhi : Nat), matchTotalAux a b fuel alo ahi blo bhi ≤ ahi - alo := by
  intro fuel
  induction fuel with
  | zero => intro alo ahi blo bhi; exact Nat.zero_le _
  | succ f ih =>
    intro alo ahi blo bhi
    rw [matchTotalAux]
    rcases heq : findLongestMatch a b alo ahi blo bhi with ⟨i, j, k⟩
    dsimp only
    by_cases hk : k = 0
    · rw [if_pos hk]; exact Nat.zero_le _
    · rw [if_neg hk]
      rcases findLongestMatch_spec a b alo ahi blo bhi i j k heq hk with ⟨h1, h2, h3, h4, -⟩
      have l1 := ih alo i blo j
      have l2 := ih (i + k) ahi (j + k) bhi
      omega

theorem mtAux_le_right (a b : List Char) :
    ∀ (fuel alo ahi blo bhi : Nat), matchTotalAux a b fuel alo ahi blo bhi ≤ bhi - blo := by
  intro fuel
  induction fuel with
  | zero => intro alo ahi blo bhi; exact Nat.zero_le _
  | succ f ih =>
    intro alo ahi blo bhi
    rw [matchTotalAux]
    rcases heq : findLongestMatch a b alo ahi blo bhi with ⟨i, j, k⟩
    dsimp only
    by_cases hk : k = 0
    · rw [if_pos hk]; exact Nat.zero_le _
    · rw [if_neg hk]
      rcases findLongestMatch_spec a b alo ahi blo bhi i j k heq hk with ⟨h1, h2, h3, h4, -⟩
      have l1 := ih alo i blo j
      have l2 := ih (i + k) ahi (j + k) bhi
      omega

theorem slice_split (a : List Char) (alo i k ahi : Nat) (h1 : alo ≤ i) (h2 : i + k ≤ ahi) :
    (a.drop alo).take (ahi - alo) =
      (a.drop alo).take (i - alo) ++ (a.drop i).take k ++ (a.drop (i + k)).take (ahi - (i + k)) := by
  have e1 : ahi - alo = ((i - alo) + k) + (ahi - (i + k)) := by omega
  rw [e1, List.take_add, List.take_add]
  rw [List.drop_drop, List.drop_drop]
  have e2 : alo + (i - alo) = i := by omega
  have e3 : alo + (i - alo + k) = i + k := by omega
  rw [e2, e3]

theorem inter_superadd (s1 t1 u s2 t2 : Multiset Char) :
    (s1 ∩ t1) + u + (s2 ∩ t2) ≤ (s1 + u + s2) ∩ (t1 + u + t2) := by
  rw [Multiset.le_iff_count]
  intro c
  simp only [Multiset.count_add, Multiset.count_inter]
  omega

theorem mtAux_le_inter (a b : List Char) :
    ∀ (fuel alo ahi blo bhi : Nat), ahi ≤ a.length → bhi ≤ b.length →
      matchTotalAux a b fuel alo ahi blo bhi ≤
        Multiset.card ((((a.drop alo).take (ahi - alo) : List Char) : Multiset Char) ∩
          (((b.drop blo).take (bhi - blo) : List Char) : Multiset Char)) := by
  intro fuel
  induction fuel with
  | zero => intro alo ahi blo bhi _ _; exact Nat.zero_le _
  | succ f ih =>
    intro alo ahi blo bhi ha hb
    rw [matchTotalAux]
    rcases heq : findLongestMatch a b alo ahi blo bhi with ⟨i, j, k⟩
    dsimp only
    by_cases hk : k = 0
    · rw [if_pos hk]; exact Nat.zero_le _
    · rw [if_neg hk]
      rcases findLongestMatch_spec a b alo ahi blo bhi i j k heq hk with ⟨h1, h2, h3, h4, hsl⟩
      have ihL := ih alo i blo j (by omega) (by omega)
      have ihR := ih (i + k) ahi (j + k) bhi ha hb
      have hsplitA := slice_split a alo i k ahi h1 h2
      have hsplitB := slice_split b blo j k bhi h3 h4
      have hcblk : Multiset.card (((a.drop i).take k : List Char) : Multiset Char) = k := by
        rw [Multiset.coe_card, List.length_take, List.length_drop]
        omega
      rw [hsplitA, hsplitB, ← hsl]
      have hco : ∀ (u v w : List Char),
          ((u ++ v ++ w : List Char) : Multiset Char) =
            (u : Multiset Char) + (v : Multiset Char) + (w : Multiset Char) := by
        intro u v w
        rfl
      rw [hco, hco]
      refine le_trans ?_ (Multiset.card_le_card (inter_superadd _ _ _ _ _))
      rw [Multiset.card_add, Multiset.card_add]
      omega

theorem matchTotal_le_bagInter (a b : List Char) :
    matchTotal a b ≤ (a.bagInter b).length := by
  have h := mtAux_le_inter a b (a.length + b.length) 0 a.length 0 b.length le_rfl le_rfl
  simp only [List.drop_zero, Nat.sub_zero, List.take_length] at h
  rwa [Multiset.coe_inter, Multiset.coe_card] at h

theorem matchTotal_le_min (a b : List Char) : matchTotal a b ≤ min a.length b.length := by
  have h1 := mtAux_le_left a b (a.length + b.length) 0 a.length 0 b.length
  have h2 := mtAux_le_right a b (a.length + b.length) 0 a.length 0 b.length
  unfold matchTotal
  omega

theorem calcRatio_mono {m1 m2 : Nat} (n : Nat) (h : m1 ≤ m2) :
    calcRatio m1 n ≤ calcRatio m2 n := by
  unfold calcRatio
  by_cases hn : n = 0
  · simp [hn]
  · rw [if_neg hn, if_neg hn, Rat.mkRat_eq_div, Rat.mkRat_eq_div]
    have hp : (0 : ℚ) < (n : ℚ) := by exact_mod_cast Nat.pos_of_ne_zero hn
    have hle : (((2 * m1 : Nat) : ℤ) : ℚ) ≤ (((2 * m2 : Nat) : ℤ) : ℚ) := by
      push_cast
      have := h
      exact_mod_cast Nat.mul_le_mul_left 2 h
    exact (div_le_div_iff_of_pos_right hp).mpr hle

theorem smRatio_le_quick (a b : List Char) : smRatio a b ≤ smQuickRatio a b :=
  calcRatio_mono _ (matchTotal_le_bagInter a b)

theorem smRatio_le_realquick (a b : List Char) : smRatio a b ≤ smRealQuickRatio a b :=
  calcRatio_mono _ (matchTotal_le_min a b)

/-- C3: for non-empty strings and any threshold in `(0, 1]`, `are_similar`
accepts exactly when the full `SequenceMatcher` ratio reaches the threshold:
the `real_quick_ratio` and `quick_ratio` pre-filters are genuine upper bounds
of the full ratio, so they can never flip the accept/reject outcome of the
full computation. -/
theorem c3_theorem (a b : List Char) (t : ℚ) (ha : a ≠ []) (hb : b ≠ [])
    (h0 : 0 < t) (h1 : t ≤ 1) :
    are_similar a b t = true ↔ t ≤ smRatio a b := by
  rw [are_similar_iff_components]
  constructor
  · intro h
    exact h.2.2.2.2
  · intro h
    exact ⟨ha, hb, le_trans h (smRatio_le_realquick a b),
      le_trans h (smRatio_le_quick a b), h⟩

/-- Witness for C3 at a concrete input. -/
theorem c3_witness :
    are_similar "ab".data "ac".data (mkRat 1 2) = true ↔
      mkRat 1 2 ≤ smRatio "ab".data "ac".data :=
  c3_theorem "ab".data "ac".data (mkRat 1 2) (by decide) (by decide) (by decide) (by decide)

/-! ## Claim C6 support: normalization is idempotent on ASCII input

The key facts: after one pass over ASCII input every character is a
lowercase-or-nonalphabetic ASCII word character or a single space, there are
no double spaces and no edge spaces -- and on such strings every stage of the
pipeline is the identity.  On non-ASCII input idempotence can fail: `İ`
(U+0130) survives the non-word filter as a word character, but lowercasing it
afterwards produces `i` followed by the combining dot U+0307, which the
second pass's non-word filter deletes (see the counterexample). -/

/-- Characters that can appear in `normalize_body` output for ASCII input:
the space, or a non-uppercase ASCII word character. -/
def goodChar (c : Char) : Prop :=
  c = ' ' ∨ (pyIsWord c = true ∧ c.toNat < 128 ∧ ¬(65 ≤ c.toNat ∧ c.toNat ≤ 90))

theorem goodChar_ascii {c : Char} (h : goodChar c) : c.toNat < 128 := by
  rcases h with rfl | ⟨-, h2, -⟩
  · decide
  · exact h2

theorem stripPrefixCI_sublist :
    ∀ {p s r : List Char}, stripPrefixCI p s = some r → r.Sublist s := by
  intro p
  induction p with
  | nil =>
    intro s r h
    have hrs : r = s := by simpa [stripPrefixCI] using h.symm
    subst hrs
    exact List.Sublist.refl _
  | cons p0 ps ih =>
    intro s r h
    cases s with
    | nil => exact absurd h (by simp [stripPrefixCI])
    | cons c cs =>
      unfold stripPrefixCI at h
      by_cases hc : asciiLower c = p0
      · rw [if_pos hc] at h
        exact (ih h).cons c
      · rw [if_neg hc] at h
        exact absurd h (by simp)

theorem takeUrlTail_sublist :
    ∀ {s r : List Char}, takeUrlTail s = some r → r.Sublist s := by
  intro s r h
  cases s with
  | nil => exact absurd h (by simp [takeUrlTail])
  | cons c cs =>
    simp only [takeUrlTail] at h
    by_cases hc : pyIsSpace c = true
    · rw [if_pos hc] at h; exact absurd h (by simp)
    · rw [if_neg hc] at h
      have hr : r = (c :: cs).dropWhile (fun d => !pyIsSpace d) := by
        simpa using h.symm
      subst hr
      exact List.dropWhile_sublist _

theorem matchUrlAt_sublist {s r : List Char} (h : matchUrlAt s = some r) : r.Sublist s := by
  unfold matchUrlAt at h
  cases hh : stripPrefixCI "http".data s with
  | none => rw [hh] at h; exact absurd h (by simp)
  | some rest =>
    rw [hh] at h
    have h' : (match stripPrefixCI "s://".data rest with
        | some r2 => takeUrlTail r2
        | none => (stripPrefixCI "://".data rest).bind takeUrlTail) = some r := h
    have hrest := stripPrefixCI_sublist hh
    cases h2 : stripPrefixCI "s://".data rest with
    | some r2 =>
      rw [h2] at h'
      exact ((takeUrlTail_sublist h').trans (stripPrefixCI_sublist h2)).trans hrest
    | none =>
      rw [h2] at h'
      cases h3 : stripPrefixCI "://".data rest with
      | none => rw [h3] at h'; exact absurd h' (by simp)
      | some r3 =>
        rw [h3] at h'
        have h'' : takeUrlTail r3 = some r := h'
        exact ((takeUrlTail_sublist h'').trans (stripPrefixCI_sublist h3)).trans hrest

theorem matchUrlAltAt_sublist {s r : List Char} (h : matchUrlAltAt s = some r) :
    r.Sublist s := by
  unfold matchUrlAltAt at h
  cases hh : stripPrefixCI "http".data s with
  | none => rw [hh] at h; exact absurd h (by simp)
  | some rest =>
    rw [hh] at h
    have h' : (match stripPrefixCI "s//".data rest with
        | some r2 => takeUrlTail r2
        | none => (stripPrefixCI "//".data rest).bind takeUrlTail) = some r := h
    have hrest := stripPrefixCI_sublist hh
    cases h2 : stripPrefixCI "s//".data rest with
    | some r2 =>
      rw [h2] at h'
      exact ((takeUrlTail_sublist h').trans (stripPrefixCI_sublist h2)).trans hrest
    | none =>
      rw [h2] at h'
      cases h3 : stripPrefixCI "//".data rest with
      | none => rw [h3] at h'; exact absurd h' (by simp)
      | some r3 =>
        rw [h3] at h'
        have h'' : takeUrlTail r3 = some r := h'
        exact ((takeUrlTail_sublist h'').trans (stripPrefixCI_sublist h3)).trans hrest

theorem urlSubAux_mem :
    ∀ (fuel : Nat) (s : List Char), ∀ c' ∈ urlSubAux fuel s, c' ∈ s ∨ c' = ' ' := by
  intro fuel
  induction fuel with
  | zero => intro s c' h; exact Or.inl h
  | succ f ih =>
    intro s c' h
    cases s with
    | nil => exact absurd h (by simp [urlSubAux])
    | cons c rest =>
      rw [urlSubAux] at h
      cases hm : matchUrlAt (c :: rest) with
      | some rem =>
        rw [hm] at h
        rcases List.mem_cons.mp h with rfl | h'
        · exact Or.inr rfl
        · rcases ih rem c' h' with h'' | h''
          · exact Or.inl ((matchUrlAt_sublist hm).mem h'')
          · exact Or.inr h''
      | none =>
        rw [hm] at h
        rcases List.mem_cons.mp h with rfl | h'
        · exact Or.inl (List.mem_cons_self _ _)
        · rcases ih rest c' h' with h'' | h''
          · exact Or.inl (List.mem_cons_of_mem _ h'')
          · exact Or.inr h''

theorem urlAltSubAux_mem :
    ∀ (fuel : Nat) (w : Bool) (s : List Char), ∀ c' ∈ urlAltSubAux fuel w s,
      c' ∈ s ∨ c' = ' ' := by
  intro fuel
  induction fuel with
  | zero => intro w s c' h; exact Or.inl h
  | succ f ih =>
    intro w s c' h
    cases s with
    | nil => exact absurd h (by simp [urlAltSubAux])
    | cons c rest =>
      rw [urlAltSubAux] at h
      by_cases hw : w = true
      · rw [if_pos hw] at h
        rcases List.mem_cons.mp h with rfl | h'
        · exact Or.inl (List.mem_cons_self _ _)
        · rcases ih _ rest c' h' with h'' | h''
          · exact Or.inl (List.mem_cons_of_mem _ h'')
          · exact Or.inr h''
      · rw [if_neg hw] at h
        cases hm : matchUrlAltAt (c :: rest) with
        | some rem =>
          rw [hm] at h
          rcases List.mem_cons.mp h with rfl | h'
          · exact Or.inr rfl
          · rcases ih _ rem c' h' with h'' | h''
            · exact Or.inl ((matchUrlAltAt_sublist hm).mem h'')
            · exact Or.inr h''
        | none =>
          rw [hm] at h
          rcases List.mem_cons.mp h with rfl | h'
          · exact Or.inl (List.mem_cons_self _ _)
          · rcases ih _ rest c' h' with h'' | h''
            · exact Or.inl (List.mem_cons_of_mem _ h'')
            · exact Or.inr h''

theorem nonWordSub_mem {s : List Char} : ∀ c' ∈ nonWordSub s, c' ∈ s ∨ c' = ' ' := by
  intro c' h
  rcases List.mem_map.mp h with ⟨c, hc, heq⟩
  by_cases hcls : (pyIsWord c || pyIsSpace c) = true
  · rw [if_pos hcls] at heq; exact Or.inl (heq ▸ hc)
  · rw [if_neg hcls] at heq; exact Or.inr heq.symm

theorem nonWordSub_class {s : List Char} :
    ∀ c' ∈ nonWordSub s, (pyIsWord c' || pyIsSpace c') = true := by
  intro c' h
  rcases List.mem_map.mp h with ⟨c, hc, heq⟩
  by_cases hcls : (pyIsWord c || pyIsSpace c) = true
  · rw [if_pos hcls] at heq; exact heq ▸ hcls
  · rw [if_neg hcls] at heq
    rw [← heq]
    decide

instance : DecidablePred goodChar := fun c => by unfold goodChar; exact inferInstance

theorem goodChar_class {c : Char} (h : goodChar c) : (pyIsWord c || pyIsSpace c) = true := by
  rcases h with rfl | ⟨hw, -, -⟩
  · decide
  · simp [hw]

theorem goodChar_space {c : Char} (h : goodChar c) (hs : pyIsSpace c = true) : c = ' ' := by
  rcases h with rfl | ⟨hw, ha, -⟩
  · rfl
  · exfalso
    simp [pyIsWord] at hw
    simp [pyIsSpace] at hs
    omega

theorem toNat_ofNat_small {n : Nat} (h : n < 55296) : (Char.ofNat n).toNat = n := by
  unfold Char.ofNat
  rw [dif_pos (Or.inl h)]
  unfold Char.ofNatAux
  unfold Char.toNat
  simp [UInt32.toNat, BitVec.toNat_ofNatLt]

/-- `asciiLower` never changes whether a character is whitespace: it only
moves `A`-`Z` to `a`-`z`, and neither range contains whitespace. -/
theorem asciiLower_space (c : Char) : pyIsSpace (asciiLower c) = pyIsSpace c := by
  unfold asciiLower
  by_cases hup : 65 ≤ c.toNat ∧ c.toNat ≤ 90
  · rw [if_pos hup]
    have h1 : pyIsSpace c = false := by simp [pyIsSpace]; omega
    have h2 : pyIsSpace (Char.ofNat (c.toNat + 32)) = false := by
      have hv : (Char.ofNat (c.toNat + 32)).toNat = c.toNat + 32 :=
        toNat_ofNat_small (by omega)
      simp [pyIsSpace, hv]; omega
    rw [h1, h2]
  · rw [if_neg hup]

/-- Transfer: a decidable fact checked for all 128 ASCII codepoints holds for
every character with `toNat < 128`. -/
theorem ascii_transfer (P : Char → Prop) (hP : ∀ n, n < 128 → P (Char.ofNat n))
    {c : Char} (hc : c.toNat < 128) : P c := by
  have := hP c.toNat hc
  rwa [Char.ofNat_toNat] at this

theorem asciiLower_good {c : Char} (hc : c.toNat < 128)
    (hcls : (pyIsWord c || pyIsSpace c) = true) (hsp : pyIsSpace c = true → c = ' ') :
    goodChar (asciiLower c) := by
  refine ascii_transfer
    (fun c => (pyIsWord c || pyIsSpace c) = true → (pyIsSpace c = true → c = ' ') →
      goodChar (asciiLower c)) ?_ hc hcls hsp
  decide

theorem asciiLower_id_of_good {c : Char} (h : goodChar c) : asciiLower c = c := by
  rcases h with rfl | ⟨-, -, hup⟩
  · decide
  · unfold asciiLower
    rw [if_neg hup]

theorem pyLowerChar_ascii {c : Char} (hc : c.toNat < 128) :
    pyLowerChar c = [asciiLower c] := by
  unfold pyLowerChar asciiLower
  rw [if_neg (by omega)]
  by_cases hup : 65 ≤ c.toNat ∧ c.toNat ≤ 90
  · rw [if_pos hup, if_pos hup]
  · rw [if_neg hup, if_neg hup]

theorem pyLower_ascii : ∀ {l : List Char}, (∀ c ∈ l, c.toNat < 128) →
    pyLower l = l.map asciiLower := by
  intro l
  induction l with
  | nil => intro _; rfl
  | cons c t ih =>
    intro h
    show (pyLowerChar c :: t.map pyLowerChar).flatten = asciiLower c :: t.map asciiLower
    rw [List.flatten_cons, pyLowerChar_ascii (h c (List.mem_cons_self _ _))]
    rw [show ([asciiLower c] : List Char) ++ (t.map pyLowerChar).flatten =
      asciiLower c :: (t.map pyLowerChar).flatten from rfl]
    rw [show (t.map pyLowerChar).flatten = pyLower t from rfl]
    rw [ih fun d hd => h d (List.mem_cons_of_mem _ hd)]

theorem dropWhile_head_false {p : Char → Bool} :
    ∀ {l : List Char} {c : Char}, (l.dropWhile p).head? = some c → p c = false := by
  intro l
  induction l with
  | nil => intro c h; exact absurd h (by simp)
  | cons a t ih =>
    intro c h
    by_cases ha : p a = true
    · rw [List.dropWhile_cons, if_pos ha] at h
      exact ih h
    · rw [List.dropWhile_cons, if_neg ha] at h
      have hac : a = c := by simpa using h
      rw [← hac]
      exact Bool.not_eq_true _ ▸ ha

theorem dropWhile_eq_self_of {p : Char → Bool} {l : List Char}
    (h : ∀ c, l.head? = some c → p c = false) : l.dropWhile p = l := by
  cases l with
  | nil => rfl
  | cons a t =>
    have ha := h a rfl
    rw [List.dropWhile_cons, if_neg (by simp [ha])]

theorem getLast?_of_suffix {l₁ l₂ : List Char} (h : l₁ <:+ l₂) (hne : l₁ ≠ []) :
    l₁.getLast? = l₂.getLast? := by
  obtain ⟨pre, rfl⟩ := h
  exact (List.getLast?_append_of_ne_nil pre hne).symm

theorem pyStrip_eq_self {l : List Char}
    (h1 : ∀ c, l.head? = some c → pyIsSpace c = false)
    (h2 : ∀ c, l.getLast? = some c → pyIsSpace c = false) : pyStrip l = l := by
  have hrev : ∀ c, l.reverse.head? = some c → pyIsSpace c = false := by
    intro c hc
    exact h2 c (by rwa [List.head?_reverse] at hc)
  unfold pyStrip
  rw [dropWhile_eq_self_of h1, dropWhile_eq_self_of hrev, List.reverse_reverse]

theorem pyStrip_head {l : List Char} {c : Char}
    (h : (pyStrip l).head? = some c) : pyIsSpace c = false := by
  unfold pyStrip at h
  rw [List.head?_reverse] at h
  have hne : List.dropWhile pyIsSpace (List.dropWhile pyIsSpace l).reverse ≠ [] := by
    intro he
    rw [he] at h
    exact absurd h (by simp)
  rw [getLast?_of_suffix (List.dropWhile_suffix _) hne] at h
  rw [List.getLast?_eq_head?_reverse, List.reverse_reverse] at h
  exact dropWhile_head_false h

theorem pyStrip_getLast {l : List Char} {c : Char}
    (h : (pyStrip l).getLast? = some c) : pyIsSpace c = false := by
  unfold pyStrip at h
  rw [List.getLast?_eq_head?_reverse, List.reverse_reverse] at h
  exact dropWhile_head_false h

theorem pyStripInfix (l : List Char) : pyStrip l <:+: l := by
  have h1 : List.dropWhile pyIsSpace l <:+ l := List.dropWhile_suffix _
  have h3 : pyStrip l <+: List.dropWhile pyIsSpace l := by
    have hsfx : List.dropWhile pyIsSpace (List.dropWhile pyIsSpace l).reverse <:+
        (List.dropWhile pyIsSpace l).reverse := List.dropWhile_suffix pyIsSpace
    obtain ⟨pre, hpre⟩ := hsfx
    refine ⟨pre.reverse, ?_⟩
    show (List.dropWhile pyIsSpace (List.dropWhile pyIsSpace l).reverse).reverse ++
      pre.reverse = List.dropWhile pyIsSpace l
    rw [← List.reverse_append, hpre, List.reverse_reverse]
  exact h3.isInfix.trans h1.isInfix

theorem stripPrefixCI_mem :
    ∀ {p s r : List Char}, stripPrefixCI p s = some r →
      ∀ x ∈ p, ∃ c ∈ s, asciiLower c = x := by
  intro p
  induction p with
  | nil => intro s r _ x hx; exact absurd hx (by simp)
  | cons p0 ps ih =>
    intro s r h x hx
    cases s with
    | nil => exact absurd h (by simp [stripPrefixCI])
    | cons c cs =>
      unfold stripPrefixCI at h
      by_cases hc : asciiLower c = p0
      · rw [if_pos hc] at h
        rcases List.mem_cons.mp hx with rfl | hx'
        · exact ⟨c, List.mem_cons_self _ _, hc⟩
        · obtain ⟨d, hd, hdeq⟩ := ih h x hx'
          exact ⟨d, List.mem_cons_of_mem _ hd, hdeq⟩
      · rw [if_neg hc] at h
        exact absurd h (by simp)

theorem goodChar_ne_url {c : Char} (h : goodChar c) :
    asciiLower c ≠ ':' ∧ asciiLower c ≠ '/' := by
  rcases h with rfl | ⟨hw, -, hup⟩
  · exact ⟨by decide, by decide⟩
  · rw [show asciiLower c = c from by unfold asciiLower; rw [if_neg hup]]
    constructor
    · intro heq; rw [heq] at hw; exact absurd hw (by decide)
    · intro heq; rw [heq] at hw; exact absurd hw (by decide)

theorem matchUrlAt_none_of_good {s : List Char} (h : ∀ c ∈ s, goodChar c) :
    matchUrlAt s = none := by
  unfold matchUrlAt
  cases hh : stripPrefixCI "http".data s with
  | none => rfl
  | some rest =>
    have hrest : ∀ c ∈ rest, goodChar c :=
      fun c hc => h c ((stripPrefixCI_sublist hh).mem hc)
    have h2 : stripPrefixCI "s://".data rest = none := by
      cases h2 : stripPrefixCI "s://".data rest with
      | none => rfl
      | some r2 =>
        obtain ⟨c, hc, hceq⟩ := stripPrefixCI_mem h2 ':' (by decide)
        exact absurd hceq (goodChar_ne_url (hrest c hc)).1
    have h3 : stripPrefixCI "://".data rest = none := by
      cases h3 : stripPrefixCI "://".data rest with
      | none => rfl
      | some r3 =>
        obtain ⟨c, hc, hceq⟩ := stripPrefixCI_mem h3 ':' (by decide)
        exact absurd hceq (goodChar_ne_url (hrest c hc)).1
    show (match stripPrefixCI "s://".data rest with
      | some r2 => takeUrlTail r2
      | none => (stripPrefixCI "://".data rest).bind takeUrlTail) = none
    rw [h2, h3]
    rfl

theorem matchUrlAltAt_none_of_good {s : List Char} (h : ∀ c ∈ s, goodChar c) :
    matchUrlAltAt s = none := by
  unfold matchUrlAltAt
  cases hh : stripPrefixCI "http".data s with
  | none => rfl
  | some rest =>
    have hrest : ∀ c ∈ rest, goodChar c :=
      fun c hc => h c ((stripPrefixCI_sublist hh).mem hc)
    have h2 : stripPrefixCI "s//".data rest = none := by
      cases h2 : stripPrefixCI "s//".data rest with
      | none => rfl
      | some r2 =>
        obtain ⟨c, hc, hceq⟩ := stripPrefixCI_mem h2 '/' (by decide)
        exact absurd hceq (goodChar_ne_url (hrest c hc)).2
    have h3 : stripPrefixCI "//".data rest = none := by
      cases h3 : stripPrefixCI "//".data rest with
      | none => rfl
      | some r3 =>
        obtain ⟨c, hc, hceq⟩ := stripPrefixCI_mem h3 '/' (by decide)
        exact absurd hceq (goodChar_ne_url (hrest c hc)).2
    show (match stripPrefixCI "s//".data rest with
      | some r2 => takeUrlTail r2
      | none => (stripPrefixCI "//".data rest).bind takeUrlTail) = none
    rw [h2, h3]
    rfl

theorem urlSubAux_id : ∀ (fuel : Nat) (s : List Char), (∀ c ∈ s, goodChar c) →
    urlSubAux fuel s = s := by
  intro fuel
  induction fuel with
  | zero => intro s _; rfl
  | succ f ih =>
    intro s h
    cases s with
    | nil => rfl
    | cons c rest =>
      rw [urlSubAux, matchUrlAt_none_of_good h]
      exact congrArg (c :: ·) (ih rest fun d hd => h d (List.mem_cons_of_mem _ hd))

theorem urlAltSubAux_id : ∀ (fuel : Nat) (w : Bool) (s : List Char),
    (∀ c ∈ s, goodChar c) → urlAltSubAux fuel w s = s := by
  intro fuel
  induction fuel with
  | zero => intro w s _; rfl
  | succ f ih =>
    intro w s h
    cases s with
    | nil => rfl
    | cons c rest =>
      have hrest : ∀ d ∈ rest, goodChar d := fun d hd => h d (List.mem_cons_of_mem _ hd)
      rw [urlAltSubAux]
      by_cases hw : w = true
      · rw [if_pos hw]
        exact congrArg (c :: ·) (ih (pyIsWord c) rest hrest)
      · rw [if_neg hw, matchUrlAltAt_none_of_good h]
        exact congrArg (c :: ·) (ih (pyIsWord c) rest hrest)

theorem nonWordSub_id : ∀ {l : List Char}, (∀ c ∈ l, goodChar c) → nonWordSub l = l := by
  intro l
  induction l with
  | nil => intro _; rfl
  | cons c t ih =>
    intro h
    show (if pyIsWord c || pyIsSpace c then c else ' ') :: nonWordSub t = c :: t
    rw [if_pos (goodChar_class (h c (List.mem_cons_self _ _)))]
    rw [ih fun d hd => h d (List.mem_cons_of_mem _ hd)]

theorem wsCollapse_id : ∀ (l : List Char),
    l.Chain' (fun x y => ¬(pyIsSpace x = true ∧ pyIsSpace y = true)) →
    (∀ c ∈ l, pyIsSpace c = true → c = ' ') → wsCollapse l = l := by
  intro l
  induction l with
  | nil => intro _ _; rfl
  | cons c rest ih =>
    intro hch hsp
    cases rest with
    | nil =>
      show (if pyIsSpace c then [' '] else [c]) = [c]
      by_cases hc : pyIsSpace c = true
      · rw [if_pos hc, hsp c (List.mem_cons_self _ _) hc]
      · rw [if_neg hc]
    | cons d rest2 =>
      obtain ⟨hnd, hch'⟩ := List.chain'_cons.mp hch
      have hcd : (pyIsSpace c && pyIsSpace d) ≠ true := by
        intro hb
        exact hnd (by simpa using hb)
      show (if pyIsSpace c && pyIsSpace d then wsCollapse (d :: rest2)
        else (if pyIsSpace c then ' ' else c) :: wsCollapse (d :: rest2)) = c :: d :: rest2
      rw [if_neg hcd]
      have h1 : (if pyIsSpace c then ' ' else c) = c := by
        by_cases hc : pyIsSpace c = true
        · rw [if_pos hc, hsp c (List.mem_cons_self _ _) hc]
        · rw [if_neg hc]
      rw [h1, ih hch' fun e he hes => hsp e (List.mem_cons_of_mem _ he) hes]

theorem wsCollapse_mem : ∀ (l : List Char), ∀ c' ∈ wsCollapse l,
    (c' ∈ l ∧ pyIsSpace c' = false) ∨ c' = ' ' := by
  intro l
  induction l with
  | nil => intro c' h; exact absurd h (by simp [wsCollapse])
  | cons c rest ih =>
    intro c' h
    cases rest with
    | nil =>
      have h' : c' ∈ (if pyIsSpace c then [' '] else [c]) := h
      by_cases hc : pyIsSpace c = true
      · rw [if_pos hc] at h'
        exact Or.inr (by simpa using h')
      · rw [if_neg hc] at h'
        have : c' = c := by simpa using h'
        subst this
        exact Or.inl ⟨List.mem_cons_self _ _, Bool.not_eq_true _ ▸ hc⟩
    | cons d rest2 =>
      have h' : c' ∈ (if pyIsSpace c && pyIsSpace d then wsCollapse (d :: rest2)
        else (if pyIsSpace c then ' ' else c) :: wsCollapse (d :: rest2)) := h
      by_cases hcd : (pyIsSpace c && pyIsSpace d) = true
      · rw [if_pos hcd] at h'
        rcases ih c' h' with ⟨hm, hns⟩ | hsp
        · exact Or.inl ⟨List.mem_cons_of_mem _ hm, hns⟩
        · exact Or.inr hsp
      · rw [if_neg hcd] at h'
        rcases List.mem_cons.mp h' with rfl | h''
        · by_cases hc : pyIsSpace c = true
          · rw [if_pos hc]; exact Or.inr rfl
          · rw [if_neg hc]
            exact Or.inl ⟨List.mem_cons_self _ _, Bool.not_eq_true _ ▸ hc⟩
        · rcases ih c' h'' with ⟨hm, hns⟩ | hsp
          · exact Or.inl ⟨List.mem_cons_of_mem _ hm, hns⟩
          · exact Or.inr hsp

theorem wsCollapse_head : ∀ (rest : List Char) (d : Char),
    ∃ e t, wsCollapse (d :: rest) = e :: t ∧ pyIsSpace e = pyIsSpace d := by
  intro rest
  induction rest with
  | nil =>
    intro d
    by_cases hd : pyIsSpace d = true
    · exact ⟨' ', [], by show (if pyIsSpace d then [' '] else [d]) = _; rw [if_pos hd],
        by rw [hd]; decide⟩
    · exact ⟨d, [], by show (if pyIsSpace d then [' '] else [d]) = _; rw [if_neg hd], rfl⟩
  | cons r rs ih =>
    intro d
    by_cases hdr : (pyIsSpace d && pyIsSpace r) = true
    · obtain ⟨e, t, he, hes⟩ := ih r
      refine ⟨e, t, ?_, ?_⟩
      · show (if pyIsSpace d && pyIsSpace r then wsCollapse (r :: rs)
          else (if pyIsSpace d then ' ' else d) :: wsCollapse (r :: rs)) = e :: t
        rw [if_pos hdr, he]
      · obtain ⟨hd, hr⟩ : pyIsSpace d = true ∧ pyIsSpace r = true := by simpa using hdr
        rw [hes, hr, hd]
    · refine ⟨if pyIsSpace d then ' ' else d, wsCollapse (r :: rs), ?_, ?_⟩
      · show (if pyIsSpace d && pyIsSpace r then wsCollapse (r :: rs)
          else (if pyIsSpace d then ' ' else d) :: wsCollapse (r :: rs)) = _
        rw [if_neg hdr]
      · by_cases hd : pyIsSpace d = true
        · rw [if_pos hd, hd]; decide
        · rw [if_neg hd]

theorem wsCollapse_chain : ∀ (l : List Char),
    (wsCollapse l).Chain' (fun x y => ¬(pyIsSpace x = true ∧ pyIsSpace y = true)) := by
  intro l
  induction l with
  | nil => exact List.chain'_nil
  | cons c rest ih =>
    cases rest with
    | nil =>
      show List.Chain' _ (if pyIsSpace c then [' '] else [c])
      by_cases hc : pyIsSpace c = true
      · rw [if_pos hc]; exact List.chain'_singleton _
      · rw [if_neg hc]; exact List.chain'_singleton _
    | cons d rest2 =>
      show List.Chain' _ (if pyIsSpace c && pyIsSpace d then wsCollapse (d :: rest2)
        else (if pyIsSpace c then ' ' else c) :: wsCollapse (d :: rest2))
      by_cases hcd : (pyIsSpace c && pyIsSpace d) = true
      · rw [if_pos hcd]; exact ih
      · rw [if_neg hcd]
        obtain ⟨e, t, he, hes⟩ := wsCollapse_head rest2 d
        rw [he]
        refine List.chain'_cons.mpr ⟨?_, he ▸ ih⟩
        intro ⟨hx, hy⟩
        rw [hes] at hy
        have hx' : pyIsSpace c = true := by
          by_cases hc : pyIsSpace c = true
          · exact hc
          · rw [if_neg hc] at hx; exact absurd hx hc
        exact hcd (by simp [hx', hy])

/-- Shape of `normalize_body` output on ASCII input: every character is a
space or a non-uppercase ASCII word character, there are no two adjacent
whitespace characters, and neither end is whitespace. -/
def NormOut (l : List Char) : Prop :=
  (∀ c ∈ l, goodChar c) ∧
  l.Chain' (fun x y => ¬(pyIsSpace x = true ∧ pyIsSpace y = true)) ∧
  (∀ c, l.head? = some c → pyIsSpace c = false) ∧
  (∀ c, l.getLast? = some c → pyIsSpace c = false)

theorem normalize_body_normOut (s : List Char) (hs : ∀ c ∈ s, c.toNat < 128) :
    NormOut (normalize_body s) := by
  show NormOut (if pyStrip s = [] then [] else
    pyLower (pyStrip (wsCollapse (nonWordSub (urlAltSub (urlSub (pyStrip s)))))))
  by_cases hnil : pyStrip s = []
  · rw [if_pos hnil]
    exact ⟨by simp, List.chain'_nil, by simp, by simp⟩
  · rw [if_neg hnil]
    have hraw : ∀ c ∈ pyStrip s, c.toNat < 128 :=
      fun c hc => hs c (List.IsInfix.mem hc (pyStripInfix s))
    have hu1 : ∀ c ∈ urlSub (pyStrip s), c.toNat < 128 := by
      intro c hc
      rcases urlSubAux_mem _ _ c hc with hm | rfl
      · exact hraw c hm
      · decide
    have hu2 : ∀ c ∈ urlAltSub (urlSub (pyStrip s)), c.toNat < 128 := by
      intro c hc
      rcases urlAltSubAux_mem _ _ _ c hc with hm | rfl
      · exact hu1 c hm
      · decide
    have hwa : ∀ c ∈ nonWordSub (urlAltSub (urlSub (pyStrip s))), c.toNat < 128 := by
      intro c hc
      rcases nonWordSub_mem c hc with hm | rfl
      · exact hu2 c hm
      · decide
    have hva : ∀ c ∈ wsCollapse (nonWordSub (urlAltSub (urlSub (pyStrip s)))),
        c.toNat < 128 := by
      intro c hc
      rcases wsCollapse_mem _ c hc with ⟨hm, -⟩ | rfl
      · exact hwa c hm
      · decide
    have hvcls : ∀ c ∈ wsCollapse (nonWordSub (urlAltSub (urlSub (pyStrip s)))),
        (pyIsWord c || pyIsSpace c) = true := by
      intro c hc
      rcases wsCollapse_mem _ c hc with ⟨hm, -⟩ | rfl
      · exact nonWordSub_class c hm
      · decide
    have hvsp : ∀ c ∈ wsCollapse (nonWordSub (urlAltSub (urlSub (pyStrip s)))),
        pyIsSpace c = true → c = ' ' := by
      intro c hc hcs
      rcases wsCollapse_mem _ c hc with ⟨-, hns⟩ | rfl
      · rw [hns] at hcs; exact absurd hcs (by simp)
      · rfl
    have ht_sub : ∀ c ∈ pyStrip (wsCollapse (nonWordSub (urlAltSub (urlSub (pyStrip s))))),
        c ∈ wsCollapse (nonWordSub (urlAltSub (urlSub (pyStrip s)))) :=
      fun c hc => List.IsInfix.mem hc (pyStripInfix _)
    have ht_ch : (pyStrip (wsCollapse (nonWordSub (urlAltSub (urlSub
        (pyStrip s)))))).Chain' (fun x y => ¬(pyIsSpace x = true ∧ pyIsSpace y = true)) :=
      List.Chain'.infix (wsCollapse_chain _) (pyStripInfix _)
    rw [pyLower_ascii (fun c hc => hva c (ht_sub c hc))]
    refine ⟨?_, ?_, ?_, ?_⟩
    · intro c' hc'
      obtain ⟨c, hc, rfl⟩ := List.mem_map.mp hc'
      exact asciiLower_good (hva c (ht_sub c hc)) (hvcls c (ht_sub c hc))
        (fun hsp => hvsp c (ht_sub c hc) hsp)
    · rw [List.chain'_map]
      refine ht_ch.imp ?_
      intro a b hab hfab
      obtain ⟨ha, hb⟩ := hfab
      rw [asciiLower_space] at ha hb
      exact hab ⟨ha, hb⟩
    · intro c hc
      rw [List.head?_map] at hc
      cases ht : (pyStrip (wsCollapse (nonWordSub (urlAltSub (urlSub
          (pyStrip s)))))).head? with
      | none => rw [ht] at hc; exact absurd hc (by simp)
      | some d =>
        rw [ht] at hc
        have hcd : c = asciiLower d := by simpa using hc.symm
        rw [hcd, asciiLower_space]
        exact pyStrip_head ht
    · intro c hc
      rw [List.getLast?_map] at hc
      cases ht : (pyStrip (wsCollapse (nonWordSub (urlAltSub (urlSub
          (pyStrip s)))))).getLast? with
      | none => rw [ht] at hc; exact absurd hc (by simp)
      | some d =>
        rw [ht] at hc
        have hcd : c = asciiLower d := by simpa using hc.symm
        rw [hcd, asciiLower_space]
        exact pyStrip_getLast ht

theorem normalize_body_id {l : List Char} (h : NormOut l) : normalize_body l = l := by
  obtain ⟨hg, hch, hhd, hlast⟩ := h
  have hstrip : pyStrip l = l := pyStrip_eq_self hhd hlast
  by_cases hnil : l = []
  · subst hnil; rfl
  · show (if pyStrip l = [] then [] else
      pyLower (pyStrip (wsCollapse (nonWordSub (urlAltSub (urlSub (pyStrip l))))))) = l
    rw [hstrip, if_neg hnil]
    rw [show urlSub l = urlSubAux l.length l from rfl, urlSubAux_id _ _ hg]
    rw [show urlAltSub l = urlAltSubAux l.length false l from rfl,
      urlAltSubAux_id _ _ _ hg]
    rw [nonWordSub_id hg]
    rw [wsCollapse_id l hch (fun c hc hcs => goodChar_space (hg c hc) hcs)]
    rw [hstrip]
    rw [pyLower_ascii (fun c hc => goodChar_ascii (hg c hc))]
    rw [List.map_eq_map_iff.mpr (fun c hc => asciiLower_id_of_good (hg c hc))]
    exact List.map_id l

/-- C6 counterexample: `normalize_body` is not idempotent for every string.
For `x = "İ"` (U+0130, Latin capital I with dot above) the first pass keeps
the character (it is a word character) and lowercases it to `i` followed by
the combining dot above U+0307; the second pass treats U+0307 as a non-word
character and deletes it, so the outputs differ. -/
theorem c6_counterexample :
    normalize_body (normalize_body [Char.ofNat 0x130]) ≠
      normalize_body [Char.ofNat 0x130] := by decide

/-- C6 (amended): for every ASCII string x,
`normalize_body (normalize_body x) = normalize_body x` -- the normalization
pipeline is idempotent on ASCII input.  (The unrestricted claim is refuted by
the `İ` counterexample above.) -/
theorem c6_theorem (s : List Char) (hs : ∀ c ∈ s, c.toNat < 128) :
    normalize_body (normalize_body s) = normalize_body s :=
  normalize_body_id (normalize_body_normOut s hs)

theorem c6_witness :
    normalize_body (normalize_body "Veja https://x.co/a1, Tudo BEM?".data) =
      normalize_body "Veja https://x.co/a1, Tudo BEM?".data :=
  c6_theorem "Veja https://x.co/a1, Tudo BEM?".data (by decide)

/-- Bridge: `lengthSkip` in the source's shape,
`min(len(rep), len(normalized)) / max(...) < threshold - 0.15` with both
strings non-empty. -/
theorem lengthSkip_eq (t : ℚ) (normalized rep : List Char) :
    lengthSkip t normalized rep = true ↔
      normalized ≠ [] ∧ rep ≠ [] ∧
        (min rep.length normalized.length : ℚ) /
          (max rep.length normalized.length : ℚ) < t - 3 / 20 := by
  have harith : (mkRat (20 * ↑(min rep.length normalized.length) +
        3 * ↑(max rep.length normalized.length))
        (20 * max rep.length normalized.length) < t ↔
      (min rep.length normalized.length : ℚ) /
        (max rep.length normalized.length : ℚ) < t - 3 / 20) ∨
      max rep.length normalized.length = 0 := by
    by_cases hmax : 0 < max rep.length normalized.length
    · left
      have hM : (0:ℚ) < (max rep.length normalized.length : ℚ) := by exact_mod_cast hmax
      rw [Rat.mkRat_eq_div]
      push_cast
      rw [div_lt_iff (by linarith), div_lt_iff hM]
      constructor <;> intro h <;> nlinarith [h]
    · right; omega
  unfold lengthSkip
  simp only [Bool.and_eq_true, Bool.not_eq_true', List.isEmpty_eq_false,
    decide_eq_true_eq, and_assoc]
  constructor
  · rintro ⟨h1, h2, h3⟩
    refine ⟨h1, h2, ?_⟩
    rcases harith with hiff | hmax0
    · exact hiff.mp h3
    · exact absurd hmax0 (by have := List.length_pos.mpr h2; omega)
  · rintro ⟨h1, h2, h3⟩
    refine ⟨h1, h2, ?_⟩
    rcases harith with hiff | hmax0
    · exact hiff.mpr h3
    · exact absurd hmax0 (by have := List.length_pos.mpr h2; omega)

/-- Bridge: `calcRatio` in the source's shape, `2.0 * matches / length`. -/
theorem calcRatio_eq_div (m n : Nat) (hn : n ≠ 0) :
    calcRatio m n = 2 * (m : ℚ) / (n : ℚ) := by
  unfold calcRatio
  rw [if_neg hn, Rat.mkRat_eq_div]
  push_cast
  ring
